import Mathlib

/-!
Verification development for the remote-image-to-local conversion pipeline of
the obsidian-image-manager plugin.  The TypeScript sources
(`LocalConversionService.ts`, `ImageProcessor.ts`, `StorageManager.ts`,
`mdx-frontmatter.ts`) are shallowly embedded below: document text is a list
of characters, the host vault is an explicit state record, and every host
API (network requests, modals, the markdown-link generator of the host,
exceptions thrown by the underlying rename) is an oracle field of an
environment record.  Asynchronous sequential code becomes explicit state
passing; thrown exceptions become `Except`; `null`/`undefined` become
`Option`.
-/

/-- Document text and all other JS strings are modelled as lists of
characters. -/
abbrev Str := List Char

/-- JS whitespace class `\s` restricted to the ASCII range (space, tab,
newline, carriage return, vertical tab, form feed). -/
def isWsChar (c : Char) : Bool :=
  c = ' ' || c = '\t' || c = '\n' || c = '\r' || c = Char.ofNat 11 || c = Char.ofNat 12

/-- ASCII lower-casing of one character, the effect of JS `toLowerCase` on
the ASCII strings that appear in this pipeline. -/
def asciiLower (c : Char) : Char :=
  if 'A' ≤ c ∧ c ≤ 'Z' then Char.ofNat (c.toNat + 32) else c

/-- JS `toLowerCase` on a string. -/
def lowerStr (s : Str) : Str := s.map asciiLower

/-- Decimal rendering of a natural number, digit characters only; the JS
template interpolation of a counter. -/
def natToDecAux : Nat → Nat → Str
  | 0, _ => []
  | fuel + 1, n =>
    if n < 10 then [Char.ofNat (48 + n)]
    else natToDecAux fuel (n / 10) ++ [Char.ofNat (48 + n % 10)]

/-- Decimal rendering of a natural number. -/
def natToDec (n : Nat) : Str := natToDecAux (n + 1) n

/-- Does `pat` occur in `text` starting at index `i`? -/
def occursAt (pat text : Str) (i : Nat) : Bool :=
  List.isPrefixOf pat (text.drop i)

/-- Index of the first occurrence of `pat` in `text` at position `≥ i`,
searched with explicit fuel. -/
def firstOccurAux (pat text : Str) : Nat → Nat → Option Nat
  | 0, _ => none
  | fuel + 1, i =>
    if occursAt pat text i then some i
    else if text.length ≤ i then none
    else firstOccurAux pat text fuel (i + 1)

/-- Index of the first occurrence of `pat` in `text`, JS `String.indexOf`. -/
def firstOccur (pat text : Str) : Option Nat :=
  firstOccurAux pat text (text.length + 1) 0

/-- Does `pat` occur anywhere in `text`?  JS `String.includes`. -/
def occursB (pat text : Str) : Bool := (firstOccur pat text).isSome

/-- JS `String.replace` with a plain-string pattern: replace the first
occurrence only; if the pattern does not occur the text is unchanged. -/
def replaceFirst (text pat repl : Str) : Str :=
  match firstOccur pat text with
  | none => text
  | some i => text.take i ++ repl ++ text.drop (i + pat.length)

/-- JS `String.startsWith`. -/
def strStartsWith (s p : Str) : Bool := List.isPrefixOf p s

/-- JS `String.split` on a single-character separator (keeps empty runs,
result is never the empty list). -/
def splitOnChar (c : Char) : Str → List Str
  | [] => [[]]
  | x :: xs =>
    let r := splitOnChar c xs
    if x = c then [] :: r
    else
      match r with
      | h :: t => (x :: h) :: t
      | [] => [[x]]

/-- Join string pieces with a single-character separator. -/
def joinChar (c : Char) : List Str → Str
  | [] => []
  | [s] => s
  | s :: rest => s ++ c :: joinChar c rest

/-- The file-name component of a vault path (text after the last slash). -/
def fileNameOf (path : Str) : Str :=
  (splitOnChar '/' path).getLastD []

/-- The folder component of a vault path (`TFile.parent.path`, with the
vault root rendered as the empty string). -/
def parentOf (path : Str) : Str :=
  let segs := splitOnChar '/' path
  if segs.length ≤ 1 then [] else joinChar '/' segs.dropLast

/-- `TFile.extension`: the text after the last dot of the file name, empty
when the name has no dot. -/
def extOf (path : Str) : Str :=
  let segs := splitOnChar '.' (fileNameOf path)
  if segs.length ≤ 1 then [] else segs.getLastD []

/-- `TFile.basename`: the file name with its extension (and its dot)
removed. -/
def basenameOf (path : Str) : Str :=
  let n := fileNameOf path
  let segs := splitOnChar '.' n
  if segs.length ≤ 1 then n else joinChar '.' segs.dropLast

/-- JS `String.trim` (ASCII whitespace). -/
def strTrim (s : Str) : Str :=
  (s.dropWhile (isWsChar ·)).reverse.dropWhile (isWsChar ·) |>.reverse

example : natToDec 0 = ['0'] := by decide
example : natToDec 12 = "12".data := by decide
example : replaceFirst "abcabc".data "bc".data "X".data = "aXabc".data := by decide
example : replaceFirst "abc".data "zz".data "X".data = "abc".data := by decide
example : splitOnChar '/' "a/b/c".data = ["a".data, "b".data, "c".data] := by decide
example : splitOnChar '/' "/".data = [[], []] := by decide
example : extOf "dir/pic.tar.png".data = "png".data := by decide
example : basenameOf "dir/pic.tar.png".data = "pic.tar".data := by decide
example : parentOf "note.md".data = [] := by decide
example : parentOf "a/b/note.md".data = "a/b".data := by decide

/-! ## Data model: settings, host environment, vault state -/

/-- `AttachmentLocation` from `types.ts`: where new assets are stored. -/
inductive AttachmentLocation
  | sameFolder
  | subfolder
  | vaultFolder
  | obsidianDefault
deriving DecidableEq

/-- The slice of `ImageManagerSettings` (from `types.ts`) that the
conversion pipeline reads. -/
structure ImageManagerSettings where
  autoRename : Bool
  enableDescriptiveImages : Bool
  dupNumberAtStart : Bool
  dupNumberDelimiter : Str
  supportedExtensions : List Str
  attachmentLocation : AttachmentLocation
  customAttachmentPath : Str
  insertSize : Str
deriving DecidableEq

/-- Which interactive modal was opened. -/
inductive ModalKind
  | descriptive
  | renameDialog
deriving DecidableEq

/-- Observable effects of a run, recorded newest-first. -/
inductive Event
  | headRequest (url : Str)
  | getRequest (url : Str)
  | savedFile (path : Str)
  | trashed (path : Str)
  | renamed (src dst : Str)
  | modalOpened (kind : ModalKind)
  | wroteDoc (path : Str)
  | createdFolder (path : Str)
  | subst (pattern : Str) (found : Bool)
deriving DecidableEq

/-- The vault plus bookkeeping: non-document files, folders, documents with
their text, how many modals and rename operations have run (used to index
the oracles), and the event trace. -/
structure VState where
  files : List Str
  folders : List Str
  docs : List (Str × Str)
  modalCount : Nat
  renameCount : Nat
  events : List Event
deriving DecidableEq

/-- Response of a full GET request (`requestUrl`): HTTP status and the
declared content-type header when present. -/
structure GetResp where
  status : Nat
  contentType : Option Str
deriving DecidableEq

/-- Host oracles.  `head url`: `none` means the request threw, `some h` a
response whose content-type header is `h`.  `get url`: `none` means the
request threw.  `renameModal`/`descModal` give the user's answer to the
n-th modal (`none` = cancelled); `descModal` answers are
(fileName, description).  `renameOp n`: `some msg` means the n-th
`fileManager.renameFile` call throws with message `msg`.  `hostGenLink` is
the host's `fileManager.generateMarkdownLink`; `encodeURI` the JS builtin;
`attachmentFolderPath` the host's attachment-folder config;
`writeFails p = some msg` means `vault.modify` on document `p` throws. -/
structure Env where
  head : Str → Option (Option Str)
  get : Str → Option GetResp
  renameModal : Nat → Option Str
  descModal : Nat → Option (Str × Str)
  renameOp : Nat → Option Str
  hostGenLink : Str → Str → Str
  encodeURI : Str → Str
  attachmentFolderPath : Str
  writeFails : Str → Option Str

/-- `ProcessedImage` from `types.ts`: outcome of one image's journey. -/
structure ProcessedImage where
  file : Option Str
  path : Str
  linkText : Str
  success : Bool
  error : Option Str
deriving DecidableEq

/-- `vault.getAbstractFileByPath` returns something (file, folder or
document). -/
def pathExists (s : VState) (p : Str) : Bool :=
  s.files.contains p || s.folders.contains p || (s.docs.map Prod.fst).contains p

/-- `getAbstractFileByPath` returns a `TFile` (not a folder). -/
def isFileAt (s : VState) (p : Str) : Bool :=
  s.files.contains p || (s.docs.map Prod.fst).contains p

/-- `vault.read` on a document path. -/
def lookupDoc (s : VState) (p : Str) : Option Str :=
  (s.docs.find? (fun d => d.1 == p)).map Prod.snd

/-- Replace a document's stored text (`vault.modify`). -/
def updateDoc (docs : List (Str × Str)) (p text : Str) : List (Str × Str) :=
  docs.map (fun d => if d.1 == p then (d.1, text) else d)

/-! ## StorageManager (`StorageManager.ts`) -/

/-- Host API model: Obsidian's `normalizePath` — backslashes to slashes,
duplicate separators collapsed, leading/trailing separators dropped. -/
def normalizePath (p : Str) : Str :=
  let q := p.map (fun c => if c = '\\' then '/' else c)
  joinChar '/' ((splitOnChar '/' q).filter (fun s => !s.isEmpty))

/-- `StorageManager.joinPaths`: drop empty segments, join with slashes. -/
def joinPaths (parts : List Str) : Str :=
  joinChar '/' (parts.filter (fun s => !s.isEmpty))

/-- Characters replaced by `-` in `sanitizeFileName`. -/
def isInvalidFileChar (c : Char) : Bool :=
  c = '\\' || c = '/' || c = ':' || c = '*' || c = '?' || c = '"' ||
  c = '<' || c = '>' || c = '|'

/-- `\s+` → single space, as one left-to-right pass. -/
def collapseWsAux : Bool → Str → Str
  | _, [] => []
  | prevWs, c :: cs =>
    if isWsChar c then
      if prevWs then collapseWsAux true cs else ' ' :: collapseWsAux true cs
    else c :: collapseWsAux false cs

/-- JS `replace(/\s+/g, ' ')`. -/
def collapseWs (s : Str) : Str := collapseWsAux false s

/-- `StorageManager.sanitizeFileName`: invalid characters to `-`, whitespace
runs to one space, strip leading/trailing dots, trim. -/
def sanitizeFileName (name : Str) : Str :=
  let a := name.map (fun c => if isInvalidFileChar c then '-' else c)
  let b := collapseWs a
  let c := b.dropWhile (· = '.')
  let d := (c.reverse.dropWhile (· = '.')).reverse
  strTrim d

/-- `StorageManager.getObsidianAttachmentFolder`: interpret the host's
`attachmentFolderPath` config. -/
def getObsidianAttachmentFolder (env : Env) (notePath : Str) : Str :=
  let afp := env.attachmentFolderPath
  let np := parentOf notePath
  if afp = "/".data then []
  else if afp = "./".data then np
  else if strStartsWith afp "./".data then normalizePath (joinPaths [np, afp.drop 2])
  else normalizePath afp

/-- `StorageManager.getAttachmentFolder`. -/
def getAttachmentFolder (env : Env) (st : ImageManagerSettings) (notePath : Str) : Str :=
  let np := parentOf notePath
  match st.attachmentLocation with
  | .sameFolder => np
  | .subfolder => normalizePath (joinPaths [np, st.customAttachmentPath])
  | .vaultFolder => normalizePath st.customAttachmentPath
  | .obsidianDefault => getObsidianAttachmentFolder env notePath

/-- `StorageManager.ensureFolderExists`: create the folder if absent, throw
if the path exists but is not a folder. -/
def ensureFolderExists (s : VState) (folderPath : Str) : Except Str VState :=
  if folderPath.isEmpty then .ok s
  else
    let np := normalizePath folderPath
    if s.folders.contains np then .ok s
    else if s.files.contains np || (s.docs.map Prod.fst).contains np then
      .error ("Path exists but is not a folder: ".data ++ np)
    else .ok { s with folders := np :: s.folders,
                      events := .createdFolder np :: s.events }

/-- The candidate file name carrying a duplicate counter, placed per the
configured position and delimiter. -/
def dupFileName (st : ImageManagerSettings) (sanitized ext : Str) (counter : Nat) : Str :=
  if st.dupNumberAtStart then
    natToDec counter ++ st.dupNumberDelimiter ++ sanitized ++ '.' :: ext
  else
    sanitized ++ st.dupNumberDelimiter ++ natToDec counter ++ '.' :: ext

/-- `filePath = folder ? normalizePath(joinPaths(folder, fileName))
: normalizePath(fileName)`. -/
def mkFilePath (folder fileName : Str) : Str :=
  if folder.isEmpty then normalizePath fileName
  else normalizePath (joinPaths [folder, fileName])

/-- The collision `while` loop of `getAvailablePath`, with explicit fuel.
The source loop always terminates because the vault is finite and fresh
counters give fresh names; the fuel below is instantiated with (number of
vault entries + 1), which realizes that bound. -/
def availableLoop (s : VState) (st : ImageManagerSettings)
    (folder sanitized ext : Str) : Nat → Nat → Option Str
  | 0, _ => none
  | fuel + 1, counter =>
    let fileName := dupFileName st sanitized ext counter
    let filePath := mkFilePath folder fileName
    if pathExists s filePath then
      availableLoop s st folder sanitized ext fuel (counter + 1)
    else some filePath

/-- Fuel bound used for the collision loop. -/
def vaultSize (s : VState) : Nat :=
  s.files.length + s.folders.length + s.docs.length

/-- `StorageManager.getAvailablePath`: resolve the attachment folder,
ensure it exists, and search `name.ext`, then counter 1, 2, 3, … until a
free path is found.  Fuel exhaustion (impossible for the real loop) is
reported as an error. -/
def getAvailablePath (env : Env) (st : ImageManagerSettings) (s : VState)
    (baseName extension notePath : Str) : Except Str (Str × VState) :=
  let folder := getAttachmentFolder env st notePath
  match ensureFolderExists s folder with
  | .error e => .error e
  | .ok s1 =>
    let sanitized := sanitizeFileName baseName
    let fileName := sanitized ++ '.' :: extension
    let filePath := mkFilePath folder fileName
    if pathExists s1 filePath then
      match availableLoop s1 st folder sanitized extension (vaultSize s1 + 1) 1 with
      | some p => .ok (p, s1)
      | none => .error "unreachable: dedup fuel exhausted".data
    else .ok (filePath, s1)

/-- JS `lastIndexOf` for a character. -/
def lastIndexOfChar (c : Char) (s : Str) : Option Nat :=
  (List.range s.length).foldl
    (fun acc i => if s.getD i ' ' = c then some i else acc) none

/-- `StorageManager.saveFile`: ensure the parent folder exists, then
`vault.createBinary` (throws when the path is taken).  The state is
returned in both outcomes, so effects preceding a throw persist. -/
def saveFile (s : VState) (filePath : Str) : Except Str Str × VState :=
  let np := normalizePath filePath
  let parentPath :=
    match lastIndexOfChar '/' np with
    | some k => if 0 < k then np.take k else []
    | none => []
  match (if parentPath.isEmpty then .ok s else ensureFolderExists s parentPath) with
  | .error e => (.error e, s)
  | .ok s1 =>
    if pathExists s1 np then (.error ("File already exists: ".data ++ np), s1)
    else (.ok np, { s1 with files := np :: s1.files,
                            events := .savedFile np :: s1.events })

/-- `StorageManager.getExtensionFromMimeType`: the fixed MIME lookup table,
defaulting to `png`. -/
def getExtensionFromMimeType (mimeType : Str) : Str :=
  if mimeType = "image/jpeg".data then "jpg".data
  else if mimeType = "image/jpg".data then "jpg".data
  else if mimeType = "image/png".data then "png".data
  else if mimeType = "image/gif".data then "gif".data
  else if mimeType = "image/webp".data then "webp".data
  else if mimeType = "image/svg+xml".data then "svg".data
  else if mimeType = "image/bmp".data then "bmp".data
  else if mimeType = "image/tiff".data then "tiff".data
  else if mimeType = "image/avif".data then "avif".data
  else "png".data

/-- `StorageManager.isImageFile` on a path's extension. -/
def isImageFilePath (path : Str) : Bool :=
  (["jpg", "jpeg", "png", "gif", "webp", "svg", "bmp", "tiff", "avif"].map
    String.data).contains (lowerStr (extOf path))

/-- JS truthiness of `s && s.trim()`. -/
def hasText (s : Str) : Bool := !(strTrim s).isEmpty

/-- JS `replace(/^!\[([^\]]*)\]/, "![" + inner + "]")`: rewrite the leading
alt-text bracket of a markdown image link, unchanged when the pattern does
not match. -/
def replaceAltPre (link inner : Str) : Str :=
  if strStartsWith link "![".data then
    let rest := link.drop 2
    let altRun := rest.takeWhile (· ≠ ']')
    match rest.drop altRun.length with
    | ']' :: tail => "![".data ++ inner ++ ']' :: tail
    | _ => link
  else link

/-- The capture of `/^!\[([^\]]*)\]/` when it matches. -/
def altOf (link : Str) : Option Str :=
  if strStartsWith link "![".data then
    let rest := link.drop 2
    let altRun := rest.takeWhile (· ≠ ']')
    match rest.drop altRun.length with
    | ']' :: _ => some altRun
    | _ => none
  else none

/-- `StorageManager.getRelativePath`. -/
def getRelativePath (fromPath toPath : Str) : Str :=
  let fromDir := parentOf fromPath
  if fromDir.isEmpty then toPath
  else if fromDir = parentOf toPath then fileNameOf toPath
  else toPath

/-- `StorageManager.generateMarkdownLink`: wrap the host link generator,
force a leading `!` for images, then splice in optional size and display
text for markdown- and wiki-style links. -/
def generateMarkdownLink (env : Env) (filePath sourcePath : Str)
    (displayText : Option Str) (insertSize : Str) : Str :=
  let link := env.hostGenLink filePath sourcePath
  let il0 :=
    if isImageFilePath filePath && !(strStartsWith link "!".data) then '!' :: link
    else link
  let dt := displayText.getD []
  if strStartsWith il0 "![".data && occursB "](".data il0 then
    if hasText insertSize then
      let sizePart := '|' :: insertSize
      if hasText dt then replaceAltPre il0 (dt ++ sizePart)
      else
        match altOf il0 with
        | some alt => replaceAltPre il0 (alt ++ sizePart)
        | none => il0
    else if hasText dt then replaceAltPre il0 dt
    else il0
  else if strStartsWith il0 "![".data && occursB "]]".data il0 then
    let parts := (if hasText insertSize then [insertSize] else []) ++
                 (if hasText dt then [dt] else [])
    if parts.isEmpty then il0
    else if List.isSuffixOf "]]".data il0 then
      il0.dropLast.dropLast ++ '|' :: joinChar '|' parts ++ "]]".data
    else il0
  else il0

example : sanitizeFileName "  a:b??c  ".data = "a-b--c".data := by decide
example : sanitizeFileName "..photo..".data = "photo".data := by decide
example : getExtensionFromMimeType "image/jpeg".data = "jpg".data := by decide
example : getExtensionFromMimeType "application/octet-stream".data = "png".data := by decide
example : normalizePath "a//b/".data = "a/b".data := by decide

/-! ## URL handling and the remote verifier (`LocalConversionService.ts`) -/

/-- Parsed pieces of a URL, as exposed by the JS `URL` object. -/
structure UrlParts where
  protocol : Str
  hostname : Str
  pathname : Str
deriving DecidableEq

/-- Host API model: the JS `new URL(...)` parse, restricted to the fields
the pipeline reads; `none` models the constructor throwing. -/
def urlParse (url : Str) : Option UrlParts :=
  match firstOccur "://".data url with
  | none => none
  | some i =>
    let scheme := url.take i
    let after := url.drop (i + 3)
    let auth := after.takeWhile (fun c => c ≠ '/' && c ≠ '?' && c ≠ '#')
    let host := auth.takeWhile (· ≠ ':')
    if scheme.isEmpty || host.isEmpty then none
    else
      let rest := after.drop auth.length
      let pathname :=
        if strStartsWith rest "/".data then
          rest.takeWhile (fun c => c ≠ '?' && c ≠ '#')
        else "/".data
      some ⟨scheme ++ ":".data, host, pathname⟩

/-- `LocalConversionService.isExternalUrl`: parses and uses an http(s)
scheme. -/
def isExternalUrl (url : Str) : Bool :=
  match urlParse url with
  | some p => (["http:", "https:"].map String.data).contains p.protocol
  | none => false

/-- The known non-image embed domains excluded up front. -/
def nonImageDomains : List Str :=
  ["youtube.com", "www.youtube.com", "youtu.be", "m.youtube.com",
   "youtube-nocookie.com", "www.youtube-nocookie.com", "vimeo.com",
   "www.vimeo.com", "spotify.com", "open.spotify.com", "soundcloud.com",
   "www.soundcloud.com"].map String.data

/-- `LocalConversionService.isImageUrl`: preliminary filter that only
rejects known non-image embed hosts. -/
def isImageUrl (url : Str) : Bool :=
  match urlParse url with
  | none => false
  | some p =>
    let hostname := lowerStr p.hostname
    !(nonImageDomains.any (fun d =>
        hostname = d || List.isSuffixOf ('.' :: d) hostname))

/-- `LocalConversionService.verifyImageUrl`: HEAD probe; true only when the
declared content type begins with `image/`; any thrown request or missing
header gives false. -/
def verifyImageUrl (env : Env) (s : VState) (url : Str) : Bool × VState :=
  let s1 := { s with events := .headRequest url :: s.events }
  match env.head url with
  | none => (false, s1)
  | some h =>
    let contentType := lowerStr (h.getD [])
    (strStartsWith contentType "image/".data, s1)

/-! ## Link Scanner (`LocalConversionService.ts` regex scans) -/

/-- The slice of `cs` matched at index `i` with length `len`. -/
def sliceAt (cs : Str) (i len : Nat) : Str := (cs.drop i).take len

/-- Try `MARKDOWN_IMAGE_REGEX = /!\[([^\]]*)\]\((https?:\/\/[^\s)]+)\)/` at
one position: result is (match length, alt capture, url capture).  The
character classes exclude their closing delimiters, so the greedy runs are
deterministic. -/
def mdMatchAt (cs : Str) (i : Nat) : Option (Nat × Str × Str) :=
  match cs.drop i with
  | '!' :: '[' :: rest =>
    let alt := rest.takeWhile (· ≠ ']')
    match rest.drop alt.length with
    | ']' :: '(' :: rest2 =>
      let schemeLen :=
        if strStartsWith rest2 "https://".data then some 8
        else if strStartsWith rest2 "http://".data then some 7
        else none
      match schemeLen with
      | none => none
      | some sl =>
        let afterScheme := rest2.drop sl
        let urlRest := afterScheme.takeWhile (fun c => !isWsChar c && c ≠ ')')
        if urlRest.isEmpty then none
        else
          match afterScheme.drop urlRest.length with
          | ')' :: _ =>
            some (2 + alt.length + 2 + sl + urlRest.length + 1,
                  alt, rest2.take sl ++ urlRest)
          | _ => none
    | _ => none
  | _ => none

/-- The `src=["'](https?:\/\/[^"']+)["'][^>]*>` tail of the HTML image
regex, tried at a fixed position: result is (consumed length, url). -/
def htmlRestMatch (after : Str) : Option (Nat × Str) :=
  if strStartsWith after "src=".data then
    match after.drop 4 with
    | q :: rest =>
      if q = '"' || q = '\'' then
        let schemeLen :=
          if strStartsWith rest "https://".data then some 8
          else if strStartsWith rest "http://".data then some 7
          else none
        match schemeLen with
        | none => none
        | some sl =>
          let afterScheme := rest.drop sl
          let urlRest := afterScheme.takeWhile (fun c => c ≠ '"' && c ≠ '\'')
          if urlRest.isEmpty then none
          else
            match afterScheme.drop urlRest.length with
            | q2 :: rest2 =>
              if q2 = '"' || q2 = '\'' then
                let tailRun := rest2.takeWhile (· ≠ '>')
                match rest2.drop tailRun.length with
                | '>' :: _ =>
                  some (4 + 1 + sl + urlRest.length + 1 + tailRun.length + 1,
                        rest.take sl ++ urlRest)
                | _ => none
              else none
            | [] => none
      else none
    | [] => none
  else none

/-- Backtracking over the greedy `[^>]+` of
`HTML_IMAGE_REGEX = /<img[^>]+src=["'](https?:\/\/[^"']+)["'][^>]*>/`:
try the longest gap first, shrinking until the tail matches. -/
def htmlScanLen (body : Str) : Nat → Option (Nat × Str)
  | 0 => none
  | len + 1 =>
    match htmlRestMatch (body.drop (len + 1)) with
    | some (consumed, url) => some (4 + (len + 1) + consumed, url)
    | none => htmlScanLen body len

/-- Try `HTML_IMAGE_REGEX` at one position: (match length, url capture). -/
def htmlMatchAt (cs : Str) (i : Nat) : Option (Nat × Str) :=
  let t := cs.drop i
  if strStartsWith t "<img".data then
    let body := t.drop 4
    htmlScanLen body (body.takeWhile (· ≠ '>')).length
  else none

/-- One global-regex `exec` loop: leftmost match at or after the current
position, then continue after the match (JS `lastIndex` semantics).  Every
matcher below consumes at least one character, so fuel `|cs| + 1` is
enough. -/
def scanAux {α : Type} (m : Str → Nat → Option (Nat × α)) (cs : Str) :
    Nat → Nat → List (Nat × Nat × α)
  | 0, _ => []
  | fuel + 1, i =>
    match m cs i with
    | some (len, a) => (i, len, a) :: scanAux m cs fuel (i + len)
    | none => if cs.length ≤ i then [] else scanAux m cs fuel (i + 1)

/-- All matches of a pattern over the document, in document order. -/
def scanMatches {α : Type} (m : Str → Nat → Option (Nat × α)) (cs : Str) :
    List (Nat × Nat × α) :=
  scanAux m cs (cs.length + 1) 0

/-- The repeated `exec` loop of `/```[\s\S]*?```/g`: each fence runs from a
triple backtick to the earliest later triple backtick; scanning resumes
after the closing marker.  (start, length) pairs. -/
def fencedRegionsAux (cs : Str) : Nat → Nat → List (Nat × Nat)
  | 0, _ => []
  | fuel + 1, i =>
    match firstOccurAux "```".data cs (cs.length + 1) i with
    | none => []
    | some s =>
      match firstOccurAux "```".data cs (cs.length + 1) (s + 3) with
      | none => []
      | some e => (s, e + 3 - s) :: fencedRegionsAux cs fuel (e + 3)

/-- All fenced-code regions of the document. -/
def fencedRegions (cs : Str) : List (Nat × Nat) :=
  fencedRegionsAux cs (cs.length + 1) 0

/-- Try the inline-code regex `/`[^`\n]+`/` at one position (length only). -/
def inlineMatchAt (cs : Str) (i : Nat) : Option (Nat × Unit) :=
  match cs.drop i with
  | '`' :: rest =>
    let run := rest.takeWhile (fun c => c ≠ '`' && c ≠ '\n')
    if run.isEmpty then none
    else
      match rest.drop run.length with
      | '`' :: _ => some (run.length + 2, ())
      | _ => none
  | _ => none

/-- Is `pos` inside one of the (start, length) regions? -/
def insideAny (regions : List (Nat × Nat)) (pos : Nat) : Bool :=
  regions.any (fun r => r.1 ≤ pos && pos < r.1 + r.2)

/-- `LocalConversionService.isInsideCodeBlock`: first the fenced regions;
then the inline-code matches, ignoring any inline match that starts inside
a fenced region (the fenced positions are computed first and excluded from
inline detection). -/
def isInsideCodeBlock (cs : Str) (position : Nat) : Bool :=
  let fenced := fencedRegions cs
  if insideAny fenced position then true
  else
    (scanMatches inlineMatchAt cs).any (fun m =>
      !insideAny fenced m.1 && (m.1 ≤ position && position < m.1 + m.2.1))

/-- Which textual form a candidate came from.  The TS candidate carries a
replacement closure; following the design note of the specification it is
embedded as this tag, consumed by one substitution function. -/
inductive CandKind
  | mdImage
  | htmlImage
deriving DecidableEq

/-- A candidate match: position, exact matched span, url, optional alt. -/
structure Candidate where
  index : Nat
  fullMatch : Str
  url : Str
  alt : Option Str
  kind : CandKind
deriving DecidableEq

/-- The markdown-image scan of `findExternalImages`: all regex matches, in
document order, outside code regions, with an external non-embed url. -/
def mdCandidates (content : Str) : List Candidate :=
  (scanMatches mdMatchAt content).filterMap (fun m =>
    if isInsideCodeBlock content m.1 then none
    else
      let url := m.2.2.2
      if !url.isEmpty && isExternalUrl url && isImageUrl url then
        some ⟨m.1, sliceAt content m.1 m.2.1, url, some m.2.2.1, .mdImage⟩
      else none)

/-- The HTML-image scan of `findExternalImages`. -/
def htmlCandidates (content : Str) : List Candidate :=
  (scanMatches htmlMatchAt content).filterMap (fun m =>
    if isInsideCodeBlock content m.1 then none
    else
      let url := m.2.2
      if !url.isEmpty && isExternalUrl url && isImageUrl url then
        some ⟨m.1, sliceAt content m.1 m.2.1, url, none, .htmlImage⟩
      else none)

/-- The sequential HEAD-verification loop at the end of
`findExternalImages`. -/
def verifyLoop (env : Env) : VState → List Candidate → List Candidate × VState
  | s, [] => ([], s)
  | s, c :: rest =>
    let (ok, s1) := verifyImageUrl env s c.url
    let (vs, s2) := verifyLoop env s1 rest
    if ok then (c :: vs, s2) else (vs, s2)

/-- `LocalConversionService.findExternalImages`: markdown candidates first,
then HTML candidates, each kept only when its URL verifies. -/
def findExternalImages (env : Env) (s : VState) (content : Str) :
    List Candidate × VState :=
  verifyLoop env s (mdCandidates content ++ htmlCandidates content)

example : mdMatchAt "![alt](http://x/y.png)".data 0 =
    some (22, "alt".data, "http://x/y.png".data) := by decide
example : htmlMatchAt "<img src=\"http://h/a.png\" alt=\"x\">".data 0 =
    some (34, "http://h/a.png".data) := by decide
example : fencedRegions "a```b```c".data = [(1, 7)] := by decide
example : isInsideCodeBlock "a```b```c".data 4 = true := by decide
example : isInsideCodeBlock "a```b```c".data 8 = false := by decide
example : isInsideCodeBlock "x `y` z".data 3 = true := by decide
example : urlParse "http://h/a.png?q=1".data =
    some ⟨"http:".data, "h".data, "/a.png".data⟩ := by decide
example : isImageUrl "https://www.youtube.com/watch".data = false := by decide
example : isImageUrl "https://imgs.example.com/a.png".data = true := by decide

/-! ## Downloader, rename workflow, orchestrator -/

/-- `fileManager.trashFile`. -/
def trashFile (s : VState) (p : Str) : VState :=
  { s with files := s.files.erase p, events := .trashed p :: s.events }

/-- The vault effect of a successful `fileManager.renameFile`. -/
def doRenameFile (s : VState) (src dst : Str) : VState :=
  { s with files := dst :: s.files.erase src,
           events := .renamed src dst :: s.events }

/-- `LocalConversionService.downloadAndSave`: GET the url; any thrown
request, status ≥ 400, or non-image content type gives `null`; otherwise
derive the extension from the MIME table and the base name from the URL's
last path segment, pick a deduplicated path and save there. -/
def downloadAndSave (env : Env) (st : ImageManagerSettings) (s : VState)
    (url notePath : Str) : Option Str × VState :=
  let s1 := { s with events := .getRequest url :: s.events }
  match env.get url with
  | none => (none, s1)
  | some resp =>
    if 400 ≤ resp.status then (none, s1)
    else
      let contentType := resp.contentType.getD []
      if !(strStartsWith (lowerStr contentType) "image/".data) then (none, s1)
      else
        let extension := getExtensionFromMimeType contentType
        match urlParse url with
        | none => (none, s1)
        | some parts =>
          let urlFileName := (splitOnChar '/' parts.pathname).getLastD []
          let nameNoExt := (splitOnChar '.' urlFileName).headD []
          let baseName := sanitizeFileName nameNoExt
          match getAvailablePath env st s1 baseName extension notePath with
          | .error _ => (none, s1)
          | .ok (filePath, s2) =>
            match saveFile s2 filePath with
            | (.error _, s3) => (none, s3)
            | (.ok _, s3) => (some filePath, s3)

/-- The naming decision of `ImageProcessor.renameImageFile` (its first
branch block, named here so the state machine is explicit): descriptive
mode opens the descriptive modal regardless of auto-rename; otherwise the
rename modal opens unless auto-rename is on.  `none` is user
cancellation. -/
def namingPhase (env : Env) (st : ImageManagerSettings) (s : VState)
    (suggestedName : Str) : Option (Str × Str) × VState :=
  if st.enableDescriptiveImages then
    let s1 := { s with events := .modalOpened .descriptive :: s.events,
                       modalCount := s.modalCount + 1 }
    match env.descModal s.modalCount with
    | none => (none, s1)
    | some r => (some r, s1)
  else if !st.autoRename then
    let s1 := { s with events := .modalOpened .renameDialog :: s.events,
                       modalCount := s.modalCount + 1 }
    match env.renameModal s.modalCount with
    | none => (none, s1)
    | some n => (some (n, []), s1)
  else (some (suggestedName, []), s)

/-- `ImageProcessor.renameImageFile`: the rename workflow used by the
conversion pipeline.  After the naming phase, the file is renamed to a
deduplicated final path.  Cancellation returns `none` (TS `null`).  A
throwing `fileManager.renameFile` is caught and reported as a failure
result carrying the thrown message. -/
def renameImageFile (env : Env) (st : ImageManagerSettings) (s : VState)
    (imagePath suggestedName notePath : Str) : Option ProcessedImage × VState :=
  let extension := extOf imagePath
  match namingPhase env st s suggestedName with
  | (none, s1) => (none, s1)
  | (some (finalName, displayText), s1) =>
    match getAvailablePath env st s1 finalName extension notePath with
    | .error e => (some ⟨none, [], [], false, some e⟩, s1)
    | .ok (finalPath, s2) =>
      let s3 := { s2 with renameCount := s2.renameCount + 1 }
      match env.renameOp s2.renameCount with
      | some msg => (some ⟨none, [], [], false, some msg⟩, s3)
      | none =>
        let s4 := doRenameFile s3 imagePath finalPath
        if isFileAt s4 finalPath then
          let linkText := generateMarkdownLink env finalPath notePath
            (some displayText) st.insertSize
          (some ⟨some finalPath, finalPath, linkText, true, none⟩, s4)
        else
          (some ⟨none, [], [], false, some "Renamed file not found".data⟩, s4)

/-- Try `/\]\(([^)]+)\)/` at one position. -/
def linkPathMatchAt (cs : Str) (i : Nat) : Option (Nat × Str) :=
  match cs.drop i with
  | ']' :: '(' :: rest =>
    let run := rest.takeWhile (· ≠ ')')
    if run.isEmpty then none
    else
      match rest.drop run.length with
      | ')' :: _ => some (run.length + 3, run)
      | _ => none
  | _ => none

/-- The capture of the first `/\]\(([^)]+)\)/` match. -/
def linkPathMatch (link : Str) : Option Str :=
  ((scanMatches linkPathMatchAt link).head?).map (fun m => m.2.2)

/-- The replacement closure attached to a markdown-image candidate,
evaluated at substitution time against the then-current vault.  When the
first `getAbstractFileByPath` lookup fails, the fallback repeats the same
lookup (so its relative-path branch cannot fire) and falls through to the
encoded-path template. -/
def mdReplacement (env : Env) (s : VState) (alt sourcePath localPath : Str) : Str :=
  if isFileAt s localPath then
    let link := generateMarkdownLink env localPath sourcePath none []
    if !alt.isEmpty && strStartsWith link "![".data && occursB "]]".data link then
      replaceFirst link "]]".data ('|' :: alt ++ "]]".data)
    else if strStartsWith link "![".data && occursB "](".data link then
      match linkPathMatch link with
      | some p => "![".data ++ alt ++ "](".data ++ p ++ ")".data
      | none => "![".data ++ alt ++ "](".data ++ env.encodeURI localPath ++ ")".data
    else link
  else if isFileAt s localPath then
    "![".data ++ alt ++ "](".data ++
      env.encodeURI (getRelativePath sourcePath localPath) ++ ")".data
  else
    "![".data ++ alt ++ "](".data ++ env.encodeURI localPath ++ ")".data

/-- The replacement closure attached to an HTML-image candidate. -/
def htmlReplacement (env : Env) (localPath : Str) : Str :=
  "![](".data ++ env.encodeURI localPath ++ ")".data

/-- Dispatch a candidate's replacement on its kind. -/
def candReplacement (env : Env) (s : VState) (c : Candidate)
    (sourcePath localPath : Str) : Str :=
  match c.kind with
  | .mdImage => mdReplacement env s (c.alt.getD []) sourcePath localPath
  | .htmlImage => htmlReplacement env localPath

/-- The per-image loop of `LocalConversionService.processContent`.  A
`.subst` event records each `newContent.replace(...)` together with whether
the stored span still occurred; `count` is incremented unconditionally
right after the replace. -/
def pcLoop (env : Env) (st : ImageManagerSettings) (sourcePath : Str)
    (isBackground : Bool) :
    List Candidate → Str → Nat → VState → Str × Nat × VState
  | [], newContent, count, s => (newContent, count, s)
  | image :: rest, newContent, count, s =>
    if isBackground && !st.autoRename then
      pcLoop env st sourcePath isBackground rest newContent count s
    else
      match downloadAndSave env st s image.url sourcePath with
      | (none, s1) => pcLoop env st sourcePath isBackground rest newContent count s1
      | (some tempPath, s1) =>
        if !(isFileAt s1 tempPath) then
          pcLoop env st sourcePath isBackground rest newContent count s1
        else
          let suggestedName :=
            match image.alt with
            | some a => if a.isEmpty then basenameOf tempPath else sanitizeFileName a
            | none => basenameOf tempPath
          match renameImageFile env st s1 tempPath suggestedName sourcePath with
          | (some r, s2) =>
            match r.file with
            | some finalFile =>
              let repl := candReplacement env s2 image sourcePath finalFile
              let found := occursB image.fullMatch newContent
              let s3 := { s2 with events := .subst image.fullMatch found :: s2.events }
              pcLoop env st sourcePath isBackground rest
                (replaceFirst newContent image.fullMatch repl) (count + 1) s3
            | none =>
              pcLoop env st sourcePath isBackground rest newContent count
                (trashFile s2 tempPath)
          | (none, s2) =>
            pcLoop env st sourcePath isBackground rest newContent count
              (trashFile s2 tempPath)

/-- `LocalConversionService.processContent`. -/
def processContent (env : Env) (st : ImageManagerSettings) (s : VState)
    (content sourcePath : Str) (isBackground : Bool) : (Str × Nat) × VState :=
  let scan := findExternalImages env s content
  let r := pcLoop env st sourcePath isBackground scan.1 content 0 scan.2
  ((r.1, r.2.1), r.2.2)

/-- `isMarkdownFile` from `mdx-frontmatter.ts`. -/
def isMarkdownFile (path : Str) : Bool :=
  extOf path = "md".data || extOf path = "mdx".data

/-- `LocalConversionService.processFile`: read, convert, and write back
only when the count is positive.  A throwing `vault.read` or
`vault.modify` is not caught here; the error propagates with the state at
the throw point. -/
def processFile (env : Env) (st : ImageManagerSettings) (s : VState)
    (docPath : Str) (isBackground : Bool) :
    Except (Str × VState) (Nat × VState) :=
  if !isMarkdownFile docPath then .ok (0, s)
  else
    match lookupDoc s docPath with
    | none => .error ("vault.read failed".data, s)
    | some content =>
      let r := processContent env st s content docPath isBackground
      let newContent := r.1.1
      let count := r.1.2
      let s1 := r.2
      if 0 < count then
        match env.writeFails docPath with
        | some msg => .error (msg, s1)
        | none =>
          .ok (count, { s1 with docs := updateDoc s1.docs docPath newContent,
                                events := .wroteDoc docPath :: s1.events })
      else .ok (count, s1)

/-- The per-document loop of `processAllFiles`; no catch surrounds the
`processFile` call, so an error propagates out of the whole loop. -/
def paLoop (env : Env) (st : ImageManagerSettings) :
    List Str → Nat → VState → Except (Str × VState) (Nat × VState)
  | [], total, s => .ok (total, s)
  | f :: rest, total, s =>
    if st.supportedExtensions.contains (extOf f) then
      match processFile env st s f false with
      | .error e => .error e
      | .ok (count, s1) => paLoop env st rest (total + count) s1
    else paLoop env st rest total s

/-- `LocalConversionService.processAllFiles`: iterate the host's markdown
file list (documents with extension `md`, in vault order), filtered by the
supported-extensions setting, summing the per-document counts. -/
def processAllFiles (env : Env) (st : ImageManagerSettings) (s : VState) :
    Except (Str × VState) (Nat × VState) :=
  paLoop env st ((s.docs.map Prod.fst).filter (fun p => extOf p = "md".data)) 0 s

/-- The count of a successful run. -/
def exceptCount (r : Except (Str × VState) (Nat × VState)) : Option Nat :=
  match r with
  | .ok (n, _) => some n
  | .error _ => none

/-- The final state of a successful run. -/
def exceptState (r : Except (Str × VState) (Nat × VState)) : Option VState :=
  match r with
  | .ok (_, s) => some s
  | .error _ => none

/-- The state at the throw point of a failed run. -/
def errState (r : Except (Str × VState) (Nat × VState)) : Option VState :=
  match r with
  | .ok _ => none
  | .error (_, s) => some s

/-! ## Event counting helpers -/

/-- Is an event a substitution record? -/
def isSubstEvent : Event → Bool
  | .subst _ _ => true
  | _ => false

/-- Is an event a successful substitution record? -/
def isSubstTrueEvent : Event → Bool
  | .subst _ true => true
  | _ => false

/-- Number of substitution records (one per counted image). -/
def substCount (evs : List Event) : Nat := (evs.filter isSubstEvent).length

/-- Number of substitutions that actually changed the text. -/
def substTrueCount (evs : List Event) : Nat := (evs.filter isSubstTrueEvent).length

/-! ## Concrete fixtures used by witnesses and counterexamples -/

/-- Automatic naming policy, counter as suffix with delimiter `-`. -/
def stAuto : ImageManagerSettings :=
  ⟨true, false, false, "-".data, ["md".data, "mdx".data], .sameFolder, [], []⟩

/-- Interactive naming policy (rename modal), counter as suffix. -/
def stInteractive : ImageManagerSettings :=
  ⟨false, false, false, "-".data, ["md".data, "mdx".data], .sameFolder, [], []⟩

/-- Auto-rename on together with descriptive images on. -/
def stDescAuto : ImageManagerSettings :=
  ⟨true, true, false, "-".data, ["md".data, "mdx".data], .sameFolder, [], []⟩

/-- Prefix-counter variant of the automatic policy. -/
def stAutoPre : ImageManagerSettings :=
  ⟨true, false, true, "-".data, ["md".data, "mdx".data], .sameFolder, [], []⟩

/-- A network where every URL ending in `.png` probes and fetches as
`image/png` and everything else reports `text/html`; all modals confirm
with name `pic`, renames succeed, the host renders wikilinks. -/
def envPng : Env where
  head := fun u =>
    if List.isSuffixOf ".png".data u then some (some "image/png".data)
    else some (some "text/html".data)
  get := fun u =>
    if List.isSuffixOf ".png".data u then some ⟨200, some "image/png".data⟩
    else some ⟨200, some "text/html".data⟩
  renameModal := fun _ => some "pic".data
  descModal := fun _ => some ("pic".data, "a pic".data)
  renameOp := fun _ => none
  hostGenLink := fun p _ => "![[".data ++ p ++ "]]".data
  encodeURI := fun s => s
  attachmentFolderPath := "/".data
  writeFails := fun _ => none

/-- `envPng` with every modal cancelled. -/
def envCancel : Env :=
  { envPng with renameModal := fun _ => none, descModal := fun _ => none }

/-- `envPng` with every `fileManager.renameFile` call throwing `boom`. -/
def envRenameThrows : Env :=
  { envPng with renameOp := fun _ => some "boom".data }

/-- An empty vault holding one document. -/
def oneDocState (docPath content : Str) : VState :=
  ⟨[], [], [(docPath, content)], 0, 0, []⟩

/-- A markdown document with a single convertible remote image. -/
def docOneImage : Str := "![x](http://h/b.png)".data

example :
    exceptCount (processFile envPng stAuto (oneDocState "note.md".data docOneImage)
      "note.md".data false) = some 1 := by decide

example :
    (exceptState (processFile envPng stAuto (oneDocState "note.md".data docOneImage)
      "note.md".data false)).bind (fun s => lookupDoc s "note.md".data) =
    some "![[x.png|x]]".data := by decide

/-! ## Deduplication: search-order characterization -/

/-- The n-th path probed by `getAvailablePath`: the plain name first, then
counter n placed per the configuration. -/
def candidatePath (st : ImageManagerSettings) (folder sanitized ext : Str) : Nat → Str
  | 0 => mkFilePath folder (sanitized ++ '.' :: ext)
  | n + 1 => mkFilePath folder (dupFileName st sanitized ext (n + 1))

/-- A successful collision loop returns the first free counter path at or
after the starting counter. -/
theorem availableLoop_spec (s : VState) (st : ImageManagerSettings)
    (folder sanitized ext : Str) :
    ∀ fuel k p, availableLoop s st folder sanitized ext fuel k = some p →
    ∃ n, k ≤ n ∧ p = mkFilePath folder (dupFileName st sanitized ext n) ∧
      pathExists s p = false ∧
      ∀ m, k ≤ m → m < n →
        pathExists s (mkFilePath folder (dupFileName st sanitized ext m)) = true := by
  intro fuel
  induction fuel with
  | zero => intro k p h; simp [availableLoop] at h
  | succ fuel ih =>
    intro k p h
    simp only [availableLoop] at h
    by_cases hex : pathExists s (mkFilePath folder (dupFileName st sanitized ext k)) = true
    · rw [if_pos hex] at h
      obtain ⟨n, hkn, hp, hfree, hall⟩ := ih (k + 1) p h
      refine ⟨n, by omega, hp, hfree, ?_⟩
      intro m hkm hmn
      rcases Nat.eq_or_lt_of_le hkm with heq | hlt
      · exact heq ▸ hex
      · exact hall m hlt hmn
    · rw [if_neg hex] at h
      obtain rfl : mkFilePath folder (dupFileName st sanitized ext k) = p :=
        Option.some_inj.mp h
      simp only [Bool.not_eq_true] at hex
      exact ⟨k, le_refl k, rfl, hex, by omega⟩

/-- A successful `getAvailablePath` returns the first free entry of the
probe sequence `sanitized.ext`, counter 1, counter 2, … -/
theorem getAvailablePath_firstFree :
    ∀ (env : Env) (st : ImageManagerSettings) (s : VState) (base ext note p : Str)
      (s₁ : VState),
      getAvailablePath env st s base ext note = .ok (p, s₁) →
      ∃ n, p = candidatePath st (getAttachmentFolder env st note)
              (sanitizeFileName base) ext n ∧
        pathExists s₁ p = false ∧
        ∀ m, m < n →
          pathExists s₁ (candidatePath st (getAttachmentFolder env st note)
            (sanitizeFileName base) ext m) = true := by
  intro env st s base ext note p s₁ h
  simp only [getAvailablePath] at h
  cases hens : ensureFolderExists s (getAttachmentFolder env st note) with
  | error e => rw [hens] at h; simp at h
  | ok s2 =>
    rw [hens] at h
    dsimp only at h
    by_cases hex : pathExists s2 (mkFilePath (getAttachmentFolder env st note)
        (sanitizeFileName base ++ '.' :: ext)) = true
    · rw [if_pos hex] at h
      cases hloop : availableLoop s2 st (getAttachmentFolder env st note)
          (sanitizeFileName base) ext (vaultSize s2 + 1) 1 with
      | none => rw [hloop] at h; simp at h
      | some q =>
        rw [hloop] at h
        obtain ⟨hpq1, hs⟩ : q = p ∧ s2 = s₁ := by
          have := Except.ok.inj h
          exact ⟨congrArg Prod.fst this, congrArg Prod.snd this⟩
        obtain ⟨n, h1n, hq, hfree, hall⟩ :=
          availableLoop_spec s2 st (getAttachmentFolder env st note)
            (sanitizeFileName base) ext (vaultSize s2 + 1) 1 q hloop
        cases n with
        | zero => omega
        | succ n' =>
          refine ⟨n' + 1, ?_, ?_, ?_⟩
          · rw [← hpq1, hq]; rfl
          · rw [← hs, ← hpq1]; exact hq ▸ hfree
          · intro m hm
            cases m with
            | zero => rw [← hs]; exact hex
            | succ m' =>
              rw [← hs]
              exact hall (m' + 1) (by omega) hm
    · rw [if_neg hex] at h
      obtain ⟨hp1, hs⟩ : mkFilePath (getAttachmentFolder env st note)
          (sanitizeFileName base ++ '.' :: ext) = p ∧ s2 = s₁ := by
        have := Except.ok.inj h
        exact ⟨congrArg Prod.fst this, congrArg Prod.snd this⟩
      refine ⟨0, hp1.symm, ?_, by omega⟩
      rw [← hs, ← hp1]
      simp only [Bool.not_eq_true] at hex
      exact hex

/-- Vault with an existing `photo.png` at the root. -/
def vPhoto : VState := ⟨["photo.png".data], [], [("note.md".data, [])], 0, 0, []⟩

/-- Vault with existing `photo.png` and `photo-1.png` at the root. -/
def vPhoto1 : VState :=
  ⟨["photo.png".data, "photo-1.png".data], [], [("note.md".data, [])], 0, 0, []⟩

/-- C5: every successful `getAvailablePath` result is the first free entry
of the probe sequence "sanitized.ext, then counter 1, 2, 3, … placed per
configuration"; in particular `photo` + existing `photo.png` (suffix `-`)
gives `photo-1.png`, with `photo-1.png` also taken gives `photo-2.png`,
and in prefix mode the first collision gives `1-photo.png`. -/
theorem claim_C5_dedup_monotonic :
    (∀ env st s base ext note p s₁,
      getAvailablePath env st s base ext note = .ok (p, s₁) →
      ∃ n, p = candidatePath st (getAttachmentFolder env st note)
              (sanitizeFileName base) ext n ∧
        pathExists s₁ p = false ∧
        ∀ m, m < n →
          pathExists s₁ (candidatePath st (getAttachmentFolder env st note)
            (sanitizeFileName base) ext m) = true) ∧
    (getAvailablePath envPng stAuto vPhoto "photo".data "png".data
        "note.md".data).toOption.map Prod.fst = some "photo-1.png".data ∧
    (getAvailablePath envPng stAuto vPhoto1 "photo".data "png".data
        "note.md".data).toOption.map Prod.fst = some "photo-2.png".data ∧
    (getAvailablePath envPng stAutoPre vPhoto "photo".data "png".data
        "note.md".data).toOption.map Prod.fst = some "1-photo.png".data :=
  ⟨getAvailablePath_firstFree, by decide, by decide, by decide⟩

/-- Witness for C5 at a concrete input: the universal part applied to the
`photo.png` collision yields counter 1 free and counter 0 taken. -/
theorem claim_C5_dedup_monotonic_witness :
    ∃ n, "photo-1.png".data = candidatePath stAuto
        (getAttachmentFolder envPng stAuto "note.md".data)
        (sanitizeFileName "photo".data) "png".data n ∧
      pathExists vPhoto "photo-1.png".data = false ∧
      ∀ m, m < n →
        pathExists vPhoto (candidatePath stAuto
          (getAttachmentFolder envPng stAuto "note.md".data)
          (sanitizeFileName "photo".data) "png".data m) = true :=
  claim_C5_dedup_monotonic.1 envPng stAuto vPhoto "photo".data "png".data
    "note.md".data "photo-1.png".data vPhoto rfl

/-- C8: the MIME table maps its nine entries exactly as listed, and every
other content-type string falls through to `png`. -/
theorem claim_C8_mime_table :
    (getExtensionFromMimeType "image/jpeg".data = "jpg".data ∧
     getExtensionFromMimeType "image/jpg".data = "jpg".data ∧
     getExtensionFromMimeType "image/png".data = "png".data ∧
     getExtensionFromMimeType "image/gif".data = "gif".data ∧
     getExtensionFromMimeType "image/webp".data = "webp".data ∧
     getExtensionFromMimeType "image/svg+xml".data = "svg".data ∧
     getExtensionFromMimeType "image/bmp".data = "bmp".data ∧
     getExtensionFromMimeType "image/tiff".data = "tiff".data ∧
     getExtensionFromMimeType "image/avif".data = "avif".data) ∧
    ∀ m : Str,
      m ∉ (["image/jpeg", "image/jpg", "image/png", "image/gif", "image/webp",
            "image/svg+xml", "image/bmp", "image/tiff", "image/avif"].map
            String.data) →
      getExtensionFromMimeType m = "png".data := by
  refine ⟨by decide, ?_⟩
  intro m hm
  unfold getExtensionFromMimeType
  split_ifs with h1 h2 h3 h4 h5 h6 h7 h8 h9
  · subst h1; exact absurd (by decide) hm
  · subst h2; exact absurd (by decide) hm
  · subst h3; exact absurd (by decide) hm
  · subst h4; exact absurd (by decide) hm
  · subst h5; exact absurd (by decide) hm
  · subst h6; exact absurd (by decide) hm
  · subst h7; exact absurd (by decide) hm
  · subst h8; exact absurd (by decide) hm
  · subst h9; exact absurd (by decide) hm
  · rfl

/-- Witness for C8: the fall-through case evaluated at
`application/octet-stream`. -/
theorem claim_C8_mime_table_witness :
    getExtensionFromMimeType "application/octet-stream".data = "png".data :=
  claim_C8_mime_table.2 "application/octet-stream".data (by decide)

/-! ## Frame and event-trace lemmas for the pipeline functions -/

/-- Filtering ignores a prefix none of whose members satisfy the
predicate. -/
theorem filter_append_none {p : Event → Bool} {d evs : List Event}
    (h : ∀ e ∈ d, p e = false) : (d ++ evs).filter p = evs.filter p := by
  rw [List.filter_append, List.filter_eq_nil_iff.mpr (by intro a ha; simp [h a ha]),
    List.nil_append]

/-- `ensureFolderExists` on success: only folders and `createdFolder`
events may change. -/
theorem ensureFolderExists_spec (s : VState) (fp : Str) :
    ∀ s1, ensureFolderExists s fp = .ok s1 →
    (∃ d, s1.events = d ++ s.events ∧ ∀ e ∈ d, ∃ q, e = Event.createdFolder q) ∧
    s1.docs = s.docs ∧ s1.files = s.files ∧
    s1.modalCount = s.modalCount ∧ s1.renameCount = s.renameCount := by
  intro s1 h
  simp only [ensureFolderExists] at h
  split_ifs at h with h1 h2 h3
  · obtain rfl := Except.ok.inj h
    exact ⟨⟨[], rfl, by simp⟩, rfl, rfl, rfl, rfl⟩
  · obtain rfl := Except.ok.inj h
    exact ⟨⟨[], rfl, by simp⟩, rfl, rfl, rfl, rfl⟩
  · obtain rfl := Except.ok.inj h
    exact ⟨⟨[Event.createdFolder (normalizePath fp)], rfl, by simp⟩, rfl, rfl, rfl, rfl⟩

/-- `getAvailablePath` on success: only folders and `createdFolder` events
may change. -/
theorem getAvailablePath_spec (env : Env) (st : ImageManagerSettings)
    (s : VState) (base : Str) (ext : Str) (note : Str) :
    ∀ p s1, getAvailablePath env st s base ext note = .ok (p, s1) →
    (∃ d, s1.events = d ++ s.events ∧ ∀ e ∈ d, ∃ q, e = Event.createdFolder q) ∧
    s1.docs = s.docs ∧ s1.files = s.files ∧
    s1.modalCount = s.modalCount ∧ s1.renameCount = s.renameCount := by
  intro p s1 h
  simp only [getAvailablePath] at h
  cases hens : ensureFolderExists s (getAttachmentFolder env st note) with
  | error e => rw [hens] at h; simp at h
  | ok s2 =>
    rw [hens] at h
    dsimp only at h
    have hspec := ensureFolderExists_spec s (getAttachmentFolder env st note) s2 hens
    split_ifs at h with h1
    · cases hloop : availableLoop s2 st (getAttachmentFolder env st note)
          (sanitizeFileName base) ext (vaultSize s2 + 1) 1 with
      | none => rw [hloop] at h; simp at h
      | some q =>
        rw [hloop] at h
        obtain rfl : s2 = s1 := congrArg Prod.snd (Except.ok.inj h)
        exact hspec
    · obtain rfl : s2 = s1 := congrArg Prod.snd (Except.ok.inj h)
      exact hspec

/-- `saveFile`: documents and counters never change; events grow only by
`savedFile` and `createdFolder` records. -/
theorem saveFile_spec (s : VState) (fp : Str) :
    (∃ d, (saveFile s fp).2.events = d ++ s.events ∧
      ∀ e ∈ d, (∃ q, e = Event.savedFile q) ∨ (∃ q, e = Event.createdFolder q)) ∧
    (saveFile s fp).2.docs = s.docs ∧
    (saveFile s fp).2.modalCount = s.modalCount ∧
    (saveFile s fp).2.renameCount = s.renameCount := by
  unfold saveFile
  dsimp only
  split
  · exact ⟨⟨[], rfl, by simp⟩, rfl, rfl, rfl⟩
  · next s2 hpar =>
    have hspec : (∃ d, s2.events = d ++ s.events ∧
        ∀ e ∈ d, ∃ q, e = Event.createdFolder q) ∧
        s2.docs = s.docs ∧ s2.files = s.files ∧
        s2.modalCount = s.modalCount ∧ s2.renameCount = s.renameCount := by
      split_ifs at hpar with h1
      · obtain rfl := Except.ok.inj hpar
        exact ⟨⟨[], rfl, by simp⟩, rfl, rfl, rfl, rfl⟩
      · exact ensureFolderExists_spec s _ s2 hpar
    obtain ⟨⟨d, hd, hall⟩, hdocs, hfiles, hm, hr⟩ := hspec
    split_ifs with h2
    · exact ⟨⟨d, hd, fun e he => Or.inr (hall e he)⟩, hdocs, hm, hr⟩
    · refine ⟨⟨Event.savedFile (normalizePath fp) :: d, by simp [hd], ?_⟩,
        hdocs, hm, hr⟩
      intro e he
      rcases List.mem_cons.mp he with rfl | he'
      · exact Or.inl ⟨_, rfl⟩
      · exact Or.inr (hall e he')

/-- The verifier's boolean depends only on the environment. -/
def urlVerifies (env : Env) (url : Str) : Bool :=
  match env.head url with
  | none => false
  | some h => strStartsWith (lowerStr (h.getD [])) "image/".data

/-- `verifyImageUrl` computes `urlVerifies` and records one head request. -/
theorem verifyImageUrl_spec (env : Env) (s : VState) (url : Str) :
    verifyImageUrl env s url =
      (urlVerifies env url, { s with events := .headRequest url :: s.events }) := by
  unfold verifyImageUrl urlVerifies
  cases env.head url <;> rfl

/-- The verification loop keeps exactly the candidates whose URL verifies,
preserves everything except events, and only adds head requests. -/
theorem verifyLoop_spec (env : Env) :
    ∀ cands s, (∀ c ∈ (verifyLoop env s cands).1, c ∈ cands ∧
        urlVerifies env c.url = true) ∧
      (∃ d, (verifyLoop env s cands).2.events = d ++ s.events ∧
        ∀ e ∈ d, ∃ u, e = Event.headRequest u) ∧
      (verifyLoop env s cands).2.docs = s.docs ∧
      (verifyLoop env s cands).2.files = s.files ∧
      (verifyLoop env s cands).2.modalCount = s.modalCount ∧
      (verifyLoop env s cands).2.renameCount = s.renameCount := by
  intro cands
  induction cands with
  | nil =>
    intro s
    exact ⟨by simp [verifyLoop], ⟨[], rfl, by simp⟩, rfl, rfl, rfl, rfl⟩
  | cons c rest ih =>
    intro s
    have hv := verifyImageUrl_spec env s c.url
    obtain ⟨hmem, ⟨d, hd, hall⟩, hdocs, hfiles, hm, hr⟩ :=
      ih { s with events := .headRequest c.url :: s.events }
    constructor
    · intro c' hc'
      simp only [verifyLoop, hv] at hc'
      by_cases hok : urlVerifies env c.url = true
      · rw [if_pos hok] at hc'
        rcases List.mem_cons.mp hc' with rfl | hc''
        · exact ⟨List.mem_cons_self _ _, hok⟩
        · exact ⟨List.mem_cons_of_mem _ (hmem c' hc'').1, (hmem c' hc'').2⟩
      · rw [if_neg hok] at hc'
        exact ⟨List.mem_cons_of_mem _ (hmem c' hc').1, (hmem c' hc').2⟩
    · have hstate : (verifyLoop env s (c :: rest)).2 =
          (verifyLoop env { s with events := .headRequest c.url :: s.events } rest).2 := by
        simp only [verifyLoop, hv]
        by_cases hok : urlVerifies env c.url = true
        · rw [if_pos hok]
        · rw [if_neg hok]
      rw [hstate]
      refine ⟨⟨d ++ [Event.headRequest c.url], by simpa using hd, ?_⟩,
        hdocs, hfiles, hm, hr⟩
      intro e he
      rcases List.mem_append.mp he with he' | he'
      · exact hall e he'
      · simp at he'
        exact ⟨c.url, he'⟩

/-- `findExternalImages`: every returned candidate verifies, the vault is
untouched, and only head requests are recorded. -/
theorem findExternalImages_spec (env : Env) (s : VState) (content : Str) :
    (∀ c ∈ (findExternalImages env s content).1,
      c ∈ mdCandidates content ++ htmlCandidates content ∧
      urlVerifies env c.url = true) ∧
    (∃ d, (findExternalImages env s content).2.events = d ++ s.events ∧
      ∀ e ∈ d, ∃ u, e = Event.headRequest u) ∧
    (findExternalImages env s content).2.docs = s.docs ∧
    (findExternalImages env s content).2.files = s.files ∧
    (findExternalImages env s content).2.modalCount = s.modalCount ∧
    (findExternalImages env s content).2.renameCount = s.renameCount :=
  verifyLoop_spec env (mdCandidates content ++ htmlCandidates content) s

/-! ## Normalized paths are fixed points of `normalizePath` -/

/-- `splitOnChar` never returns the empty list. -/
theorem splitOnChar_ne_nil (c : Char) : ∀ l : Str, splitOnChar c l ≠ [] := by
  intro l
  induction l with
  | nil => simp [splitOnChar]
  | cons x xs ih =>
    simp only [splitOnChar]
    split_ifs
    · simp
    · cases hr : splitOnChar c xs with
      | nil => exact absurd hr ih
      | cons h t => simp

/-- Splitting a separator-free string gives that string alone. -/
theorem splitOnChar_no_sep (c : Char) :
    ∀ l : Str, (∀ x ∈ l, x ≠ c) → splitOnChar c l = [l] := by
  intro l
  induction l with
  | nil => intro _; rfl
  | cons x xs ih =>
    intro h
    simp only [splitOnChar]
    rw [if_neg (h x (List.mem_cons_self x xs)), ih (fun y hy => h y (List.mem_cons_of_mem x hy))]

/-- Splitting behind a separator-free prefix. -/
theorem splitOnChar_append_sep (c : Char) (rest : Str) :
    ∀ a : Str, (∀ x ∈ a, x ≠ c) →
    splitOnChar c (a ++ c :: rest) = a :: splitOnChar c rest := by
  intro a
  induction a with
  | nil =>
    intro _
    simp [splitOnChar]
  | cons x xs ih =>
    intro h
    simp only [List.cons_append, splitOnChar, List.append_eq]
    rw [if_neg (h x (List.mem_cons_self x xs)),
      ih (fun y hy => h y (List.mem_cons_of_mem x hy))]

/-- The separator never occurs inside a piece of a split. -/
theorem not_mem_splitOnChar (c : Char) :
    ∀ (l : Str) (seg : Str), seg ∈ splitOnChar c l → c ∉ seg := by
  intro l
  induction l with
  | nil =>
    intro seg hseg
    simp [splitOnChar] at hseg
    simp [hseg]
  | cons x xs ih =>
    intro seg hseg
    simp only [splitOnChar] at hseg
    split_ifs at hseg with hx
    · rcases List.mem_cons.mp hseg with rfl | hseg'
      · simp
      · exact ih seg hseg'
    · cases hr : splitOnChar c xs with
      | nil => exact absurd hr (splitOnChar_ne_nil c xs)
      | cons hh tt =>
        rw [hr] at hseg
        rcases List.mem_cons.mp hseg with rfl | hseg'
        · intro hc
          rcases List.mem_cons.mp hc with rfl | hc'
          · exact hx rfl
          · exact ih hh (hr ▸ List.mem_cons_self hh tt) hc'
        · exact ih seg (hr ▸ List.mem_cons_of_mem hh hseg')

/-- Every character of a split piece comes from the original string. -/
theorem mem_of_mem_splitOnChar (c : Char) :
    ∀ (l seg : Str), seg ∈ splitOnChar c l → ∀ x ∈ seg, x ∈ l := by
  intro l
  induction l with
  | nil =>
    intro seg hseg x hx
    simp [splitOnChar] at hseg
    subst hseg
    simp at hx
  | cons y ys ih =>
    intro seg hseg x hx
    simp only [splitOnChar] at hseg
    split_ifs at hseg with hy
    · rcases List.mem_cons.mp hseg with rfl | hseg'
      · simp at hx
      · exact List.mem_cons_of_mem y (ih seg hseg' x hx)
    · cases hr : splitOnChar c ys with
      | nil => exact absurd hr (splitOnChar_ne_nil c ys)
      | cons hh tt =>
        rw [hr] at hseg
        rcases List.mem_cons.mp hseg with rfl | hseg'
        · rcases List.mem_cons.mp hx with rfl | hx'
          · exact List.mem_cons_self x ys
          · exact List.mem_cons_of_mem y (ih hh (hr ▸ List.mem_cons_self hh tt) x hx')
        · exact List.mem_cons_of_mem y (ih seg (hr ▸ List.mem_cons_of_mem hh hseg') x hx)

/-- Characters of a join are the separator or come from a piece. -/
theorem mem_joinChar (c : Char) :
    ∀ (L : List Str) (x : Char), x ∈ joinChar c L →
      x = c ∨ ∃ seg ∈ L, x ∈ seg := by
  intro L
  induction L with
  | nil => intro x hx; simp [joinChar] at hx
  | cons s rest ih =>
    intro x hx
    cases rest with
    | nil =>
      simp only [joinChar] at hx
      exact Or.inr ⟨s, List.mem_cons_self s [], hx⟩
    | cons t ts =>
      simp only [joinChar] at hx
      rcases List.mem_append.mp hx with hx' | hx'
      · exact Or.inr ⟨s, List.mem_cons_self _ _, hx'⟩
      · rcases List.mem_cons.mp hx' with rfl | hx''
        · exact Or.inl rfl
        · rcases ih x hx'' with h | ⟨seg, hseg, hxs⟩
          · exact Or.inl h
          · exact Or.inr ⟨seg, List.mem_cons_of_mem s hseg, hxs⟩

/-- Splitting a join of separator-free pieces recovers the pieces. -/
theorem splitOnChar_joinChar (c : Char) :
    ∀ L : List Str, L ≠ [] → (∀ seg ∈ L, ∀ x ∈ seg, x ≠ c) →
    splitOnChar c (joinChar c L) = L := by
  intro L
  induction L with
  | nil => intro h; exact absurd rfl h
  | cons s rest ih =>
    intro _ hfree
    cases rest with
    | nil =>
      simp only [joinChar]
      exact splitOnChar_no_sep c s (hfree s (List.mem_cons_self s []))
    | cons t ts =>
      simp only [joinChar]
      rw [splitOnChar_append_sep c _ s (hfree s (List.mem_cons_self _ _))]
      rw [ih (by simp) (fun seg hseg => hfree seg (List.mem_cons_of_mem s hseg))]

/-- Mapping a pointwise-identity function leaves a string unchanged. -/
theorem map_self_of_forall {f : Char → Char} :
    ∀ l : Str, (∀ x ∈ l, f x = x) → l.map f = l := by
  intro l
  induction l with
  | nil => intro _; rfl
  | cons x xs ih =>
    intro h
    simp only [List.map_cons]
    rw [h x (List.mem_cons_self x xs), ih (fun y hy => h y (List.mem_cons_of_mem x hy))]

/-- A join of slash-free, backslash-free, nonempty pieces is a fixed point
of `normalizePath`. -/
theorem normalizePath_fix (L : List Str)
    (hfree : ∀ seg ∈ L, ∀ x ∈ seg, x ≠ '/')
    (hbs : ∀ seg ∈ L, ∀ x ∈ seg, x ≠ '\\')
    (hne : ∀ seg ∈ L, seg.isEmpty = false) :
    normalizePath (joinChar '/' L) = joinChar '/' L := by
  simp only [normalizePath]
  have hmap : (joinChar '/' L).map (fun c => if c = '\\' then '/' else c) =
      joinChar '/' L := by
    apply map_self_of_forall
    intro x hx
    rcases mem_joinChar '/' L x hx with rfl | ⟨seg, hseg, hxs⟩
    · rfl
    · exact if_neg (hbs seg hseg x hxs)
  rw [hmap]
  by_cases hLnil : L = []
  · rw [hLnil]; rfl
  · rw [splitOnChar_joinChar '/' L hLnil hfree]
    rw [List.filter_eq_self.mpr (fun seg hseg => by simp [hne seg hseg])]

/-- Obsidian's `normalizePath` is idempotent in this model. -/
theorem normalizePath_idem (p : Str) :
    normalizePath (normalizePath p) = normalizePath p := by
  apply normalizePath_fix
  · intro seg hseg x hx hcx
    exact not_mem_splitOnChar '/' _ seg (List.mem_of_mem_filter hseg) (hcx ▸ hx)
  · intro seg hseg x hx hbs
    have hxq := mem_of_mem_splitOnChar '/' _ seg (List.mem_of_mem_filter hseg) x hx
    rcases List.mem_map.mp hxq with ⟨a, _, ha⟩
    by_cases hab : a = '\\'
    · rw [hab] at ha; simp at ha; rw [← ha] at hbs; exact absurd hbs (by decide)
    · rw [if_neg hab] at ha; exact hab (by rw [ha, hbs])
  · intro seg hseg
    have := List.of_mem_filter hseg
    simp only [Bool.not_eq_true'] at this
    exact this

/-- `mkFilePath` results are normalized. -/
theorem mkFilePath_normalized (folder name : Str) :
    normalizePath (mkFilePath folder name) = mkFilePath folder name := by
  unfold mkFilePath
  split_ifs <;> exact normalizePath_idem _

/-- Paths returned by `getAvailablePath` are normalized. -/
theorem getAvailablePath_norm (env : Env) (st : ImageManagerSettings)
    (s : VState) (base ext note p : Str) (s₁ : VState)
    (h : getAvailablePath env st s base ext note = .ok (p, s₁)) :
    normalizePath p = p := by
  obtain ⟨n, hp, -, -⟩ := getAvailablePath_firstFree env st s base ext note p s₁ h
  cases n with
  | zero => rw [hp]; exact mkFilePath_normalized _ _
  | succ n' => rw [hp]; exact mkFilePath_normalized _ _

/-- A successful `saveFile` stores exactly at the normalized path, which
was fresh among the files. -/
theorem saveFile_ok (s : VState) (fp q : Str) (s1 : VState)
    (h : saveFile s fp = (.ok q, s1)) :
    q = normalizePath fp ∧ s1.files = q :: s.files ∧
    s.files.contains q = false := by
  unfold saveFile at h
  dsimp only at h
  split at h
  · simp at h
  · next s2 hpar =>
    have hfiles : s2.files = s.files := by
      split_ifs at hpar with h1
      · obtain rfl := Except.ok.inj hpar; rfl
      · exact (ensureFolderExists_spec s _ s2 hpar).2.2.1
    split_ifs at h with h2
    · simp at h
    · have hinj := Prod.mk.injEq .. |>.mp h
      obtain ⟨h3, h4⟩ := hinj
      obtain rfl := Except.ok.inj h3
      refine ⟨rfl, ?_, ?_⟩
      · rw [← h4]
        dsimp only
        rw [hfiles]
      · have hfalse : pathExists s2 (normalizePath fp) = false := by
          simp only [Bool.not_eq_true] at h2; exact h2
        unfold pathExists at hfalse
        rw [Bool.or_eq_false_iff, Bool.or_eq_false_iff] at hfalse
        rw [← hfiles]
        exact hfalse.1.1

/-- `downloadAndSave`, any outcome: documents and counters never change;
events grow only by the GET record, saved-file and created-folder
records. -/
theorem downloadAndSave_spec (env : Env) (st : ImageManagerSettings)
    (s : VState) (url note : Str) :
    (∃ d, (downloadAndSave env st s url note).2.events = d ++ s.events ∧
      ∀ e ∈ d, e = Event.getRequest url ∨ (∃ q, e = Event.savedFile q) ∨
        (∃ q, e = Event.createdFolder q)) ∧
    (downloadAndSave env st s url note).2.docs = s.docs ∧
    (downloadAndSave env st s url note).2.modalCount = s.modalCount ∧
    (downloadAndSave env st s url note).2.renameCount = s.renameCount := by
  unfold downloadAndSave
  dsimp only
  have base : ∀ x : Option Str,
      (x, { s with events := Event.getRequest url :: s.events }).2.events =
        [Event.getRequest url] ++ s.events := by intro x; rfl
  split
  · exact ⟨⟨[Event.getRequest url], rfl, by simp⟩, rfl, rfl, rfl⟩
  · next resp hresp =>
    split_ifs with h400 hct
    · exact ⟨⟨[Event.getRequest url], rfl, by simp⟩, rfl, rfl, rfl⟩
    · exact ⟨⟨[Event.getRequest url], rfl, by simp⟩, rfl, rfl, rfl⟩
    · split
      · exact ⟨⟨[Event.getRequest url], rfl, by simp⟩, rfl, rfl, rfl⟩
      · next parts hparts =>
        split
        · exact ⟨⟨[Event.getRequest url], rfl, by simp⟩, rfl, rfl, rfl⟩
        · next fp s2 hgap =>
          obtain ⟨⟨d1, hd1, hall1⟩, hdocs1, hfiles1, hm1, hr1⟩ :=
            getAvailablePath_spec env st
              { s with events := Event.getRequest url :: s.events } _ _ _ fp s2 hgap
          have hsf := saveFile_spec s2 fp
          obtain ⟨⟨d2, hd2, hall2⟩, hdocs2, hm2, hr2⟩ := hsf
          split
          · next e s3 hsave =>
            rw [hsave] at hd2 hdocs2 hm2 hr2
            refine ⟨⟨d2 ++ d1 ++ [Event.getRequest url], ?_, ?_⟩, ?_, ?_, ?_⟩
            · simp only [List.append_assoc, List.singleton_append]
              rw [hd2, hd1]
            · intro e' he'
              rcases List.mem_append.mp he' with he'' | he''
              · rcases List.mem_append.mp he'' with h3 | h3
                · rcases hall2 e' h3 with ⟨q, hq⟩ | ⟨q, hq⟩
                  · exact Or.inr (Or.inl ⟨q, hq⟩)
                  · exact Or.inr (Or.inr ⟨q, hq⟩)
                · rcases hall1 e' h3 with ⟨q, hq⟩
                  exact Or.inr (Or.inr ⟨q, hq⟩)
              · simp at he''
                exact Or.inl he''
            · rw [hdocs2, hdocs1]
            · rw [hm2, hm1]
            · rw [hr2, hr1]
          · next q s3 hsave =>
            rw [hsave] at hd2 hdocs2 hm2 hr2
            refine ⟨⟨d2 ++ d1 ++ [Event.getRequest url], ?_, ?_⟩, ?_, ?_, ?_⟩
            · simp only [List.append_assoc, List.singleton_append]
              rw [hd2, hd1]
            · intro e' he'
              rcases List.mem_append.mp he' with he'' | he''
              · rcases List.mem_append.mp he'' with h3 | h3
                · rcases hall2 e' h3 with ⟨q', hq⟩ | ⟨q', hq⟩
                  · exact Or.inr (Or.inl ⟨q', hq⟩)
                  · exact Or.inr (Or.inr ⟨q', hq⟩)
                · rcases hall1 e' h3 with ⟨q', hq⟩
                  exact Or.inr (Or.inr ⟨q', hq⟩)
              · simp at he''
                exact Or.inl he''
            · rw [hdocs2, hdocs1]
            · rw [hm2, hm1]
            · rw [hr2, hr1]

/-- A successful `downloadAndSave` stored the returned temp path as a new
file: it is pushed on the file list and was not there before. -/
theorem downloadAndSave_some (env : Env) (st : ImageManagerSettings)
    (s : VState) (url note tp : Str) (s' : VState)
    (h : downloadAndSave env st s url note = (some tp, s')) :
    s'.files = tp :: s.files ∧ s.files.contains tp = false := by
  unfold downloadAndSave at h
  dsimp only at h
  split at h
  · simp at h
  · next resp hresp =>
    split_ifs at h with h400 hct
    · simp at h
    · simp at h
    · split at h
      · simp at h
      · next parts hparts =>
        split at h
        · simp at h
        · next fp s2 hgap =>
          split at h
          · next e s3 hsave => simp at h
          · next q s3 hsave =>
            have hinj := Prod.mk.injEq .. |>.mp h
            obtain ⟨h1, h2⟩ := hinj
            obtain rfl : fp = tp := Option.some_inj.mp h1
            subst h2
            obtain ⟨hq, hfl, hcont⟩ := saveFile_ok s2 fp q s3 hsave
            have hnorm : normalizePath fp = fp :=
              getAvailablePath_norm env st _ _ _ _ fp s2 hgap
            have hfiles2 : s2.files = s.files :=
              (getAvailablePath_spec env st
                { s with events := Event.getRequest url :: s.events } _ _ _ fp s2
                hgap).2.2.1
            rw [hq] at hcont hfl
            rw [hnorm] at hcont hfl
            rw [hfiles2] at hfl hcont
            exact ⟨hfl, hcont⟩

/-- The naming phase touches only events (one modal record) and the modal
counter. -/
theorem namingPhase_spec (env : Env) (st : ImageManagerSettings)
    (s : VState) (sug : Str) :
    (∃ d, (namingPhase env st s sug).2.events = d ++ s.events ∧
      ∀ e ∈ d, ∃ k, e = Event.modalOpened k) ∧
    (namingPhase env st s sug).2.docs = s.docs ∧
    (namingPhase env st s sug).2.files = s.files ∧
    (namingPhase env st s sug).2.renameCount = s.renameCount := by
  unfold namingPhase
  dsimp only
  split_ifs with h1 h2
  · cases env.descModal s.modalCount <;>
      exact ⟨⟨[Event.modalOpened .descriptive], rfl, by simp⟩, rfl, rfl, rfl⟩
  · cases env.renameModal s.modalCount <;>
      exact ⟨⟨[Event.modalOpened .renameDialog], rfl, by simp⟩, rfl, rfl, rfl⟩
  · exact ⟨⟨[], rfl, by simp⟩, rfl, rfl, rfl⟩

/-- `renameImageFile`, any outcome: documents never change; events grow
only by modal, created-folder and renamed records. -/
theorem renameImageFile_spec (env : Env) (st : ImageManagerSettings)
    (s : VState) (ip sug note : Str) :
    (∃ d, (renameImageFile env st s ip sug note).2.events = d ++ s.events ∧
      ∀ e ∈ d, (∃ k, e = Event.modalOpened k) ∨ (∃ q, e = Event.createdFolder q) ∨
        (∃ a b, e = Event.renamed a b)) ∧
    (renameImageFile env st s ip sug note).2.docs = s.docs := by
  unfold renameImageFile
  dsimp only
  obtain ⟨⟨d0, hd0, hall0⟩, hdocs0, hfiles0, hr0⟩ := namingPhase_spec env st s sug
  split
  · next s1 hnp =>
    rw [hnp] at hd0 hdocs0
    exact ⟨⟨d0, hd0, fun e he => Or.inl (hall0 e he)⟩, hdocs0⟩
  · next fn dt s1 hnp =>
    rw [hnp] at hd0 hdocs0 hfiles0 hr0
    split
    · next e hgap =>
      exact ⟨⟨d0, hd0, fun e' he => Or.inl (hall0 e' he)⟩, hdocs0⟩
    · next finalPath s2 hgap =>
      obtain ⟨⟨d1, hd1, hall1⟩, hdocs1, hfiles1, hm1, hr1⟩ :=
        getAvailablePath_spec env st s1 fn (extOf ip) note finalPath s2 hgap
      have hcomb : ∀ e ∈ d1 ++ d0,
          (∃ k, e = Event.modalOpened k) ∨ (∃ q, e = Event.createdFolder q) ∨
          (∃ a b, e = Event.renamed a b) := by
        intro e he
        rcases List.mem_append.mp he with he' | he'
        · exact Or.inr (Or.inl (hall1 e he'))
        · exact Or.inl (hall0 e he')
      split
      · next msg hop =>
        refine ⟨⟨d1 ++ d0, ?_, hcomb⟩, ?_⟩
        · show s2.events = (d1 ++ d0) ++ s.events
          rw [hd1, hd0, List.append_assoc]
        · show s2.docs = s.docs
          rw [hdocs1, hdocs0]
      · split_ifs with hfound
        · refine ⟨⟨Event.renamed ip finalPath :: (d1 ++ d0), ?_, ?_⟩, ?_⟩
          · show Event.renamed ip finalPath :: s2.events = _
            rw [hd1, hd0]
            simp [List.append_assoc]
          · intro e he
            rcases List.mem_cons.mp he with rfl | he'
            · exact Or.inr (Or.inr ⟨ip, finalPath, rfl⟩)
            · exact hcomb e he'
          · show s2.docs = s.docs
            rw [hdocs1, hdocs0]
        · refine ⟨⟨Event.renamed ip finalPath :: (d1 ++ d0), ?_, ?_⟩, ?_⟩
          · show Event.renamed ip finalPath :: s2.events = _
            rw [hd1, hd0]
            simp [List.append_assoc]
          · intro e he
            rcases List.mem_cons.mp he with rfl | he'
            · exact Or.inr (Or.inr ⟨ip, finalPath, rfl⟩)
            · exact hcomb e he'
          · show s2.docs = s.docs
            rw [hdocs1, hdocs0]

/-- Counting helpers for events added in front. -/
theorem substCount_append_none {d evs : List Event}
    (h : ∀ e ∈ d, isSubstEvent e = false) :
    substCount (d ++ evs) = substCount evs := by
  unfold substCount
  rw [filter_append_none h]

/-- A non-substitution event does not change the substitution count. -/
theorem substCount_cons_not (e : Event) (evs : List Event)
    (h : isSubstEvent e = false) : substCount (e :: evs) = substCount evs := by
  simp [substCount, List.filter_cons, h]

/-- A substitution event raises the substitution count by one. -/
theorem substCount_cons_subst (a : Str) (b : Bool) (evs : List Event) :
    substCount (Event.subst a b :: evs) = substCount evs + 1 := by
  simp [substCount, List.filter_cons, isSubstEvent]

/-- The download step never records substitution events. -/
theorem downloadAndSave_substCount (env : Env) (st : ImageManagerSettings)
    (s : VState) (url note : Str) :
    substCount (downloadAndSave env st s url note).2.events =
      substCount s.events := by
  obtain ⟨⟨d, hd, hall⟩, -, -, -⟩ := downloadAndSave_spec env st s url note
  rw [hd]
  apply substCount_append_none
  intro e he
  rcases hall e he with rfl | ⟨q, rfl⟩ | ⟨q, rfl⟩ <;> rfl

/-- The rename workflow never records substitution events. -/
theorem renameImageFile_substCount (env : Env) (st : ImageManagerSettings)
    (s : VState) (ip sug note : Str) :
    substCount (renameImageFile env st s ip sug note).2.events =
      substCount s.events := by
  obtain ⟨⟨d, hd, hall⟩, -⟩ := renameImageFile_spec env st s ip sug note
  rw [hd]
  apply substCount_append_none
  intro e he
  rcases hall e he with ⟨k, rfl⟩ | ⟨q, rfl⟩ | ⟨a, b, rfl⟩ <;> rfl

/-- Documents are never changed inside the per-image loop. -/
theorem pcLoop_docs (env : Env) (st : ImageManagerSettings)
    (sourcePath : Str) (bg : Bool) :
    ∀ (images : List Candidate) (nc : Str) (cnt : Nat) (s : VState),
    (pcLoop env st sourcePath bg images nc cnt s).2.2.docs = s.docs := by
  intro images
  induction images with
  | nil => intro nc cnt s; rfl
  | cons image rest ih =>
    intro nc cnt s
    simp only [pcLoop]
    split_ifs with hbg
    · exact ih nc cnt s
    · rcases hdl : downloadAndSave env st s image.url sourcePath with ⟨tpOpt, s1⟩
      have hdocs1 : s1.docs = s.docs := by
        have := (downloadAndSave_spec env st s image.url sourcePath).2.1
        rw [hdl] at this
        exact this
      cases tpOpt with
      | none =>
        dsimp only
        rw [ih nc cnt s1, hdocs1]
      | some tp =>
        dsimp only
        split_ifs with hfile
        · rw [ih nc cnt s1, hdocs1]
        · rcases hrif : renameImageFile env st s1 tp
            (match image.alt with
             | some a => if a.isEmpty = true then basenameOf tp else sanitizeFileName a
             | none => basenameOf tp) sourcePath with ⟨rOpt, s2⟩
          have hdocs2 : s2.docs = s1.docs := by
            have := (renameImageFile_spec env st s1 tp (match image.alt with | some a => if a.isEmpty = true then basenameOf tp else sanitizeFileName a | none => basenameOf tp) sourcePath).2
            rw [hrif] at this
            exact this
          cases rOpt with
          | none =>
            dsimp only
            rw [ih _ _ (trashFile s2 tp)]
            show s2.docs = s.docs
            rw [hdocs2, hdocs1]
          | some r =>
            cases hrf : r.file with
            | none =>
              dsimp only
              rw [hrf]
              dsimp only
              rw [ih _ _ (trashFile s2 tp)]
              show s2.docs = s.docs
              rw [hdocs2, hdocs1]
            | some finalFile =>
              dsimp only
              rw [hrf]
              dsimp only
              rw [ih _ _ _]
              show s2.docs = s.docs
              rw [hdocs2, hdocs1]

/-- C10 core: the per-image loop increments the count exactly once per
recorded substitution event, found or not. -/
theorem pcLoop_count (env : Env) (st : ImageManagerSettings)
    (sourcePath : Str) (bg : Bool) :
    ∀ (images : List Candidate) (nc : Str) (cnt : Nat) (s : VState),
    (pcLoop env st sourcePath bg images nc cnt s).2.1 + substCount s.events =
      cnt + substCount (pcLoop env st sourcePath bg images nc cnt s).2.2.events := by
  intro images
  induction images with
  | nil => intro nc cnt s; rfl
  | cons image rest ih =>
    intro nc cnt s
    simp only [pcLoop]
    split_ifs with hbg
    · exact ih nc cnt s
    · rcases hdl : downloadAndSave env st s image.url sourcePath with ⟨tpOpt, s1⟩
      have hsc1 : substCount s1.events = substCount s.events := by
        have := downloadAndSave_substCount env st s image.url sourcePath
        rw [hdl] at this
        exact this
      cases tpOpt with
      | none =>
        dsimp only
        have := ih nc cnt s1
        omega
      | some tp =>
        dsimp only
        split_ifs with hfile
        · have := ih nc cnt s1
          omega
        · rcases hrif : renameImageFile env st s1 tp
            (match image.alt with
             | some a => if a.isEmpty = true then basenameOf tp else sanitizeFileName a
             | none => basenameOf tp) sourcePath with ⟨rOpt, s2⟩
          have hsc2 : substCount s2.events = substCount s1.events := by
            have := renameImageFile_substCount env st s1 tp (match image.alt with | some a => if a.isEmpty = true then basenameOf tp else sanitizeFileName a | none => basenameOf tp) sourcePath
            rw [hrif] at this
            exact this
          cases rOpt with
          | none =>
            dsimp only
            have htr : substCount (trashFile s2 tp).events = substCount s2.events :=
              substCount_cons_not _ _ rfl
            have := ih nc cnt (trashFile s2 tp)
            omega
          | some r =>
            cases hrf : r.file with
            | none =>
              dsimp only
              rw [hrf]
              dsimp only
              have htr : substCount (trashFile s2 tp).events = substCount s2.events :=
                substCount_cons_not _ _ rfl
              have := ih nc cnt (trashFile s2 tp)
              omega
            | some finalFile =>
              dsimp only
              rw [hrf]
              dsimp only
              have hsub : substCount (Event.subst image.fullMatch (occursB image.fullMatch nc) :: s2.events) = substCount s2.events + 1 :=
                substCount_cons_subst _ _ _
              have := ih (replaceFirst nc image.fullMatch (candReplacement env s2 image sourcePath finalFile)) (cnt + 1) { s2 with events := Event.subst image.fullMatch (occursB image.fullMatch nc) :: s2.events }
              dsimp only at this
              omega

/-- Events added by the per-image loop: never a document write, and a GET
request only for a listed image's URL. -/
theorem pcLoop_events (env : Env) (st : ImageManagerSettings)
    (sourcePath : Str) (bg : Bool) :
    ∀ (images : List Candidate) (nc : Str) (cnt : Nat) (s : VState),
    ∃ d, (pcLoop env st sourcePath bg images nc cnt s).2.2.events = d ++ s.events ∧
      (∀ p, Event.wroteDoc p ∉ d) ∧
      (∀ u, Event.getRequest u ∈ d → ∃ c ∈ images, u = c.url) := by
  intro images
  induction images with
  | nil => intro nc cnt s; exact ⟨[], rfl, by simp, by simp⟩
  | cons image rest ih =>
    intro nc cnt s
    simp only [pcLoop]
    split_ifs with hbg
    · obtain ⟨d, hd, hw, hg⟩ := ih nc cnt s
      refine ⟨d, hd, hw, ?_⟩
      intro u hu
      obtain ⟨c, hc, hcu⟩ := hg u hu
      exact ⟨c, List.mem_cons_of_mem image hc, hcu⟩
    · rcases hdl : downloadAndSave env st s image.url sourcePath with ⟨tpOpt, s1⟩
      obtain ⟨⟨d1, hd1, hall1⟩, -, -, -⟩ :=
        downloadAndSave_spec env st s image.url sourcePath
      rw [hdl] at hd1
      dsimp only at hd1
      have hd1w : ∀ p, Event.wroteDoc p ∉ d1 := by
        intro p hp
        rcases hall1 _ hp with h | ⟨q, h⟩ | ⟨q, h⟩ <;> simp at h
      have hd1g : ∀ u, Event.getRequest u ∈ d1 → u = image.url := by
        intro u hu
        rcases hall1 _ hu with h | ⟨q, h⟩ | ⟨q, h⟩
        · exact Event.getRequest.inj h
        · simp at h
        · simp at h
      cases tpOpt with
      | none =>
        dsimp only
        obtain ⟨d, hd, hw, hg⟩ := ih nc cnt s1
        refine ⟨d ++ d1, by rw [hd, hd1, List.append_assoc], ?_, ?_⟩
        · intro p hp
          rcases List.mem_append.mp hp with h | h
          · exact hw p h
          · exact hd1w p h
        · intro u hu
          rcases List.mem_append.mp hu with h | h
          · obtain ⟨c, hc, hcu⟩ := hg u h
            exact ⟨c, List.mem_cons_of_mem image hc, hcu⟩
          · exact ⟨image, List.mem_cons_self _ _, hd1g u h⟩
      | some tp =>
        dsimp only
        split_ifs with hfile
        · obtain ⟨d, hd, hw, hg⟩ := ih nc cnt s1
          refine ⟨d ++ d1, by rw [hd, hd1, List.append_assoc], ?_, ?_⟩
          · intro p hp
            rcases List.mem_append.mp hp with h | h
            · exact hw p h
            · exact hd1w p h
          · intro u hu
            rcases List.mem_append.mp hu with h | h
            · obtain ⟨c, hc, hcu⟩ := hg u h
              exact ⟨c, List.mem_cons_of_mem image hc, hcu⟩
            · exact ⟨image, List.mem_cons_self _ _, hd1g u h⟩
        · rcases hrif : renameImageFile env st s1 tp (match image.alt with | some a => if a.isEmpty = true then basenameOf tp else sanitizeFileName a | none => basenameOf tp) sourcePath with ⟨rOpt, s2⟩
          obtain ⟨⟨d2, hd2, hall2⟩, -⟩ :=
            renameImageFile_spec env st s1 tp (match image.alt with | some a => if a.isEmpty = true then basenameOf tp else sanitizeFileName a | none => basenameOf tp) sourcePath
          rw [hrif] at hd2
          dsimp only at hd2
          have hd2w : ∀ p, Event.wroteDoc p ∉ d2 := by
            intro p hp
            rcases hall2 _ hp with ⟨k, h⟩ | ⟨q, h⟩ | ⟨a, b, h⟩ <;> simp at h
          have hd2g : ∀ u, Event.getRequest u ∉ d2 := by
            intro u hu
            rcases hall2 _ hu with ⟨k, h⟩ | ⟨q, h⟩ | ⟨a, b, h⟩ <;> simp at h
          have assemble : ∀ (e0 : Event) (sNew : VState),
              sNew.events = e0 :: s2.events →
              (∀ p, e0 ≠ Event.wroteDoc p) → (∀ u, e0 ≠ Event.getRequest u) →
              ∀ (nc' : Str) (cnt' : Nat),
              ∃ d, (pcLoop env st sourcePath bg rest nc' cnt' sNew).2.2.events =
                  d ++ s.events ∧
                (∀ p, Event.wroteDoc p ∉ d) ∧
                (∀ u, Event.getRequest u ∈ d → ∃ c ∈ image :: rest, u = c.url) := by
            intro e0 sNew hsNew hne hng nc' cnt'
            obtain ⟨d, hd, hw, hg⟩ := ih nc' cnt' sNew
            rw [hsNew] at hd
            refine ⟨d ++ e0 :: (d2 ++ d1), ?_, ?_, ?_⟩
            · rw [hd, hd2, hd1]
              simp [List.append_assoc]
            · intro p hp
              rcases List.mem_append.mp hp with h | h
              · exact hw p h
              · rcases List.mem_cons.mp h with h' | h'
                · exact hne p h'.symm
                · rcases List.mem_append.mp h' with h'' | h''
                  · exact hd2w p h''
                  · exact hd1w p h''
            · intro u hu
              rcases List.mem_append.mp hu with h | h
              · obtain ⟨c, hc, hcu⟩ := hg u h
                exact ⟨c, List.mem_cons_of_mem image hc, hcu⟩
              · rcases List.mem_cons.mp h with h' | h'
                · exact absurd h'.symm (hng u)
                · rcases List.mem_append.mp h' with h'' | h''
                  · exact absurd h'' (hd2g u)
                  · exact ⟨image, List.mem_cons_self _ _, hd1g u h''⟩
          cases rOpt with
          | none =>
            dsimp only
            exact assemble (Event.trashed tp) (trashFile s2 tp) rfl
              (by intro p h; simp at h) (by intro u h; simp at h) nc cnt
          | some r =>
            cases hrf : r.file with
            | none =>
              dsimp only
              rw [hrf]
              dsimp only
              exact assemble (Event.trashed tp) (trashFile s2 tp) rfl
                (by intro p h; simp at h) (by intro u h; simp at h) nc cnt
            | some finalFile =>
              dsimp only
              rw [hrf]
              dsimp only
              exact assemble (Event.subst image.fullMatch (occursB image.fullMatch nc))
                { s2 with events := Event.subst image.fullMatch (occursB image.fullMatch nc) :: s2.events }
                rfl (by intro p h; simp at h) (by intro u h; simp at h) _ (cnt + 1)

/-- Found-substitution counting over a benign prefix. -/
theorem substTrueCount_append_none {d evs : List Event}
    (h : ∀ e ∈ d, isSubstTrueEvent e = false) :
    substTrueCount (d ++ evs) = substTrueCount evs := by
  unfold substTrueCount
  rw [filter_append_none h]

/-- A non-found event does not change the found-substitution count. -/
theorem substTrueCount_cons_not (e : Event) (evs : List Event)
    (h : isSubstTrueEvent e = false) :
    substTrueCount (e :: evs) = substTrueCount evs := by
  simp [substTrueCount, List.filter_cons, h]

/-- A found substitution raises the found-substitution count. -/
theorem substTrueCount_cons_true (a : Str) (evs : List Event) :
    substTrueCount (Event.subst a true :: evs) = substTrueCount evs + 1 := by
  simp [substTrueCount, List.filter_cons, isSubstTrueEvent]

/-- The download step records no found substitutions. -/
theorem downloadAndSave_substTrueCount (env : Env) (st : ImageManagerSettings)
    (s : VState) (url note : Str) :
    substTrueCount (downloadAndSave env st s url note).2.events =
      substTrueCount s.events := by
  obtain ⟨⟨d, hd, hall⟩, -, -, -⟩ := downloadAndSave_spec env st s url note
  rw [hd]
  apply substTrueCount_append_none
  intro e he
  rcases hall e he with rfl | ⟨q, rfl⟩ | ⟨q, rfl⟩ <;> rfl

/-- The rename workflow records no found substitutions. -/
theorem renameImageFile_substTrueCount (env : Env) (st : ImageManagerSettings)
    (s : VState) (ip sug note : Str) :
    substTrueCount (renameImageFile env st s ip sug note).2.events =
      substTrueCount s.events := by
  obtain ⟨⟨d, hd, hall⟩, -⟩ := renameImageFile_spec env st s ip sug note
  rw [hd]
  apply substTrueCount_append_none
  intro e he
  rcases hall e he with ⟨k, rfl⟩ | ⟨q, rfl⟩ | ⟨a, b, rfl⟩ <;> rfl

/-- The found-substitution count never decreases along the loop. -/
theorem pcLoop_substTrue_mono (env : Env) (st : ImageManagerSettings)
    (sourcePath : Str) (bg : Bool) :
    ∀ (images : List Candidate) (nc : Str) (cnt : Nat) (s : VState),
    substTrueCount s.events ≤
      substTrueCount (pcLoop env st sourcePath bg images nc cnt s).2.2.events := by
  intro images
  induction images with
  | nil => intro nc cnt s; exact le_refl _
  | cons image rest ih =>
    intro nc cnt s
    simp only [pcLoop]
    split_ifs with hbg
    · exact ih nc cnt s
    · rcases hdl : downloadAndSave env st s image.url sourcePath with ⟨tpOpt, s1⟩
      have hsc1 : substTrueCount s1.events = substTrueCount s.events := by
        have := downloadAndSave_substTrueCount env st s image.url sourcePath
        rw [hdl] at this
        exact this
      cases tpOpt with
      | none =>
        dsimp only
        have := ih nc cnt s1
        omega
      | some tp =>
        dsimp only
        split_ifs with hfile
        · have := ih nc cnt s1
          omega
        · rcases hrif : renameImageFile env st s1 tp (match image.alt with | some a => if a.isEmpty = true then basenameOf tp else sanitizeFileName a | none => basenameOf tp) sourcePath with ⟨rOpt, s2⟩
          have hsc2 : substTrueCount s2.events = substTrueCount s1.events := by
            have := renameImageFile_substTrueCount env st s1 tp (match image.alt with | some a => if a.isEmpty = true then basenameOf tp else sanitizeFileName a | none => basenameOf tp) sourcePath
            rw [hrif] at this
            exact this
          cases rOpt with
          | none =>
            dsimp only
            have htr : substTrueCount (trashFile s2 tp).events = substTrueCount s2.events :=
              substTrueCount_cons_not _ _ rfl
            have := ih nc cnt (trashFile s2 tp)
            omega
          | some r =>
            cases hrf : r.file with
            | none =>
              dsimp only
              rw [hrf]
              dsimp only
              have htr : substTrueCount (trashFile s2 tp).events = substTrueCount s2.events :=
                substTrueCount_cons_not _ _ rfl
              have := ih nc cnt (trashFile s2 tp)
              omega
            | some finalFile =>
              dsimp only
              rw [hrf]
              dsimp only
              have hstep : substTrueCount s2.events ≤ substTrueCount (Event.subst image.fullMatch (occursB image.fullMatch nc) :: s2.events) := by
                cases hocc : occursB image.fullMatch nc with
                | false => rw [substTrueCount_cons_not (Event.subst image.fullMatch false) s2.events rfl]
                | true => rw [substTrueCount_cons_true]; omega
              have := ih (replaceFirst nc image.fullMatch (candReplacement env s2 image sourcePath finalFile)) (cnt + 1) { s2 with events := Event.subst image.fullMatch (occursB image.fullMatch nc) :: s2.events }
              dsimp only at this
              omega

/-- C9 core: starting from the document text with count 0, if the loop
records no found substitution then it also applied none — the text comes
back unchanged and the count stays 0.  (The first counted image always
substitutes successfully, because its stored span is a verbatim substring
of the original text.) -/
theorem pcLoop_zero_subst (env : Env) (st : ImageManagerSettings)
    (sourcePath : Str) (bg : Bool) (content : Str) :
    ∀ (images : List Candidate) (s : VState),
    (∀ c ∈ images, occursB c.fullMatch content = true) →
    substTrueCount (pcLoop env st sourcePath bg images content 0 s).2.2.events =
      substTrueCount s.events →
    (pcLoop env st sourcePath bg images content 0 s).1 = content ∧
    (pcLoop env st sourcePath bg images content 0 s).2.1 = 0 := by
  intro images
  induction images with
  | nil => intro s _ _; exact ⟨rfl, rfl⟩
  | cons image rest ih =>
    intro s hall heq
    simp only [pcLoop] at heq ⊢
    split_ifs at heq ⊢ with hbg
    · exact ih s (fun c hc => hall c (List.mem_cons_of_mem image hc)) heq
    · rcases hdl : downloadAndSave env st s image.url sourcePath with ⟨tpOpt, s1⟩
      rw [hdl] at heq
      have hsc1 : substTrueCount s1.events = substTrueCount s.events := by
        have := downloadAndSave_substTrueCount env st s image.url sourcePath
        rw [hdl] at this
        exact this
      cases tpOpt with
      | none =>
        dsimp only at heq ⊢
        exact ih s1 (fun c hc => hall c (List.mem_cons_of_mem image hc))
          (by rw [heq, hsc1])
      | some tp =>
        dsimp only at heq ⊢
        split_ifs at heq ⊢ with hfile
        · exact ih s1 (fun c hc => hall c (List.mem_cons_of_mem image hc))
            (by rw [heq, hsc1])
        · rcases hrif : renameImageFile env st s1 tp (match image.alt with | some a => if a.isEmpty = true then basenameOf tp else sanitizeFileName a | none => basenameOf tp) sourcePath with ⟨rOpt, s2⟩
          rw [hrif] at heq
          have hsc2 : substTrueCount s2.events = substTrueCount s1.events := by
            have := renameImageFile_substTrueCount env st s1 tp (match image.alt with | some a => if a.isEmpty = true then basenameOf tp else sanitizeFileName a | none => basenameOf tp) sourcePath
            rw [hrif] at this
            exact this
          cases rOpt with
          | none =>
            dsimp only at heq ⊢
            have htr : substTrueCount (trashFile s2 tp).events = substTrueCount s2.events :=
              substTrueCount_cons_not _ _ rfl
            exact ih (trashFile s2 tp)
              (fun c hc => hall c (List.mem_cons_of_mem image hc))
              (by rw [heq]; omega)
          | some r =>
            dsimp only at heq ⊢
            cases hrf : r.file with
            | none =>
              rw [hrf] at heq
              dsimp only at heq ⊢
              have htr : substTrueCount (trashFile s2 tp).events = substTrueCount s2.events :=
                substTrueCount_cons_not _ _ rfl
              exact ih (trashFile s2 tp)
                (fun c hc => hall c (List.mem_cons_of_mem image hc))
                (by rw [heq]; omega)
            | some finalFile =>
              exfalso
              rw [hrf] at heq
              dsimp only at heq
              rw [hall image (List.mem_cons_self image rest)] at heq
              have hmono := pcLoop_substTrue_mono env st sourcePath bg rest
                (replaceFirst content image.fullMatch (candReplacement env s2 image sourcePath finalFile)) (0 + 1)
                { s2 with events := Event.subst image.fullMatch true :: s2.events }
              dsimp only at hmono
              rw [substTrueCount_cons_true] at hmono
              omega

/-- Every triple reported by a scan is a successful match of the pattern
matcher at its index. -/
theorem scanAux_mem {α : Type} (m : Str → Nat → Option (Nat × α)) (cs : Str) :
    ∀ fuel pos i len a, (i, len, a) ∈ scanAux m cs fuel pos →
      m cs i = some (len, a) := by
  intro fuel
  induction fuel with
  | zero => intro pos i len a h; simp [scanAux] at h
  | succ fuel ih =>
    intro pos i len a h
    simp only [scanAux] at h
    cases hm : m cs pos with
    | some la =>
      rw [hm] at h
      rcases List.mem_cons.mp h with heq | h'
      · obtain ⟨h1, h2⟩ := Prod.mk.injEq .. |>.mp heq
        obtain ⟨h3, h4⟩ := Prod.mk.injEq .. |>.mp h2
        rw [h1, hm]
        rw [h3, h4]
      · exact ih (pos + la.1) i len a h'
    | none =>
      rw [hm] at h
      split_ifs at h
      · simp at h
      · exact ih (pos + 1) i len a h

/-- Search succeeds when an occurrence exists within the fuel range. -/
theorem firstOccurAux_isSome (pat text : Str) :
    ∀ fuel start j, start ≤ j → j ≤ text.length → occursAt pat text j = true →
    j < start + fuel → (firstOccurAux pat text fuel start).isSome = true := by
  intro fuel
  induction fuel with
  | zero => intro start j h1 h2 h3 h4; omega
  | succ fuel ih =>
    intro start j h1 h2 h3 h4
    simp only [firstOccurAux]
    split_ifs with hocc hlen
    · rfl
    · exfalso
      have hj : j = start := by omega
      rw [hj] at h3
      exact hocc h3
    · rcases Nat.eq_or_lt_of_le h1 with rfl | hlt
      · exact absurd h3 hocc
      · exact ih (start + 1) j hlt h2 h3 (by omega)

/-- A slice taken at a valid index occurs in the string. -/
theorem occursB_sliceAt (cs : Str) (i len : Nat) (hi : i ≤ cs.length) :
    occursB (sliceAt cs i len) cs = true := by
  unfold occursB firstOccur
  have hocc : occursAt (sliceAt cs i len) cs i = true := by
    unfold occursAt sliceAt
    exact List.isPrefixOf_iff_prefix.mpr (List.take_prefix len _)
  exact firstOccurAux_isSome (sliceAt cs i len) cs (cs.length + 1) 0 i
    (Nat.zero_le i) hi hocc (by omega)

/-- A successful markdown-image match starts inside the string. -/
theorem mdMatchAt_lt (cs : Str) (i : Nat) (len : Nat) (a : Str × Str)
    (h : mdMatchAt cs i = some (len, a)) : i ≤ cs.length := by
  by_contra hlt
  have hnil : cs.drop i = [] := by
    rw [List.drop_eq_nil_iff]
    omega
  unfold mdMatchAt at h
  rw [hnil] at h
  simp at h

/-- A successful HTML-image match starts inside the string. -/
theorem htmlMatchAt_lt (cs : Str) (i : Nat) (len : Nat) (a : Str)
    (h : htmlMatchAt cs i = some (len, a)) : i ≤ cs.length := by
  by_contra hlt
  have hnil : cs.drop i = [] := by
    rw [List.drop_eq_nil_iff]
    omega
  unfold htmlMatchAt at h
  rw [hnil] at h
  simp [strStartsWith, List.isPrefixOf] at h

/-- Markdown candidates record a position outside code regions, the
verbatim matched slice, and a match of the regex at that position. -/
theorem mdCandidates_sound (content : Str) :
    ∀ c ∈ mdCandidates content,
      isInsideCodeBlock content c.index = false ∧
      occursB c.fullMatch content = true := by
  intro c hc
  obtain ⟨m, hm, hf⟩ := List.mem_filterMap.mp hc
  obtain ⟨i, len, alt, url⟩ := m
  dsimp only at hf
  split_ifs at hf with h1 h2
  · obtain rfl := Option.some_inj.mp hf
    dsimp only
    constructor
    · simp only [Bool.not_eq_true] at h1
      exact h1
    · have hmatch := scanAux_mem mdMatchAt content (content.length + 1) 0 i len
        (alt, url) hm
      exact occursB_sliceAt content i len (mdMatchAt_lt content i len (alt, url) hmatch)

/-- HTML candidates record a position outside code regions, the verbatim
matched slice, and a match of the regex at that position. -/
theorem htmlCandidates_sound (content : Str) :
    ∀ c ∈ htmlCandidates content,
      isInsideCodeBlock content c.index = false ∧
      occursB c.fullMatch content = true := by
  intro c hc
  obtain ⟨m, hm, hf⟩ := List.mem_filterMap.mp hc
  obtain ⟨i, len, url⟩ := m
  dsimp only at hf
  split_ifs at hf with h1 h2
  · obtain rfl := Option.some_inj.mp hf
    dsimp only
    constructor
    · simp only [Bool.not_eq_true] at h1
      exact h1
    · have hmatch := scanAux_mem htmlMatchAt content (content.length + 1) 0 i len
        url hm
      exact occursB_sliceAt content i len (htmlMatchAt_lt content i len url hmatch)

/-- Every candidate returned by the scanner lies outside code regions and
stores a verbatim substring of the document. -/
theorem findExternalImages_sound (env : Env) (s : VState) (content : Str) :
    ∀ c ∈ (findExternalImages env s content).1,
      isInsideCodeBlock content c.index = false ∧
      occursB c.fullMatch content = true := by
  intro c hc
  obtain ⟨hmem, -⟩ := (findExternalImages_spec env s content).1 c hc
  rcases List.mem_append.mp hmem with h | h
  · exact mdCandidates_sound content c h
  · exact htmlCandidates_sound content c h

/-- A document pass never changes stored documents (only the final write in
`processFile` can). -/
theorem processContent_docs (env : Env) (st : ImageManagerSettings)
    (s : VState) (content sourcePath : Str) (bg : Bool) :
    (processContent env st s content sourcePath bg).2.docs = s.docs := by
  unfold processContent
  dsimp only
  rw [pcLoop_docs]
  exact (findExternalImages_spec env s content).2.2.1

/-- C10 universal core: the count returned by a document pass equals the
number of substitution events it records — one per downloaded-and-renamed
image, whether or not its span still occurred. -/
theorem processContent_count (env : Env) (st : ImageManagerSettings)
    (s : VState) (content sourcePath : Str) (bg : Bool) :
    (processContent env st s content sourcePath bg).1.2 + substCount s.events =
      substCount (processContent env st s content sourcePath bg).2.events := by
  unfold processContent
  dsimp only
  have hscan : substCount (findExternalImages env s content).2.events =
      substCount s.events := by
    obtain ⟨-, ⟨d, hd, hall⟩, -, -, -, -⟩ := findExternalImages_spec env s content
    rw [hd]
    apply substCount_append_none
    intro e he
    obtain ⟨u, rfl⟩ := hall e he
    rfl
  have := pcLoop_count env st sourcePath bg (findExternalImages env s content).1
    content 0 (findExternalImages env s content).2
  omega

/-- Events added by a document pass: never a document write; a GET request
only for a URL that passed the verifier. -/
theorem processContent_events (env : Env) (st : ImageManagerSettings)
    (s : VState) (content sourcePath : Str) (bg : Bool) :
    ∃ d, (processContent env st s content sourcePath bg).2.events = d ++ s.events ∧
      (∀ p, Event.wroteDoc p ∉ d) ∧
      (∀ u, Event.getRequest u ∈ d → urlVerifies env u = true) := by
  unfold processContent
  dsimp only
  obtain ⟨-, ⟨d0, hd0, hall0⟩, -, -, -, -⟩ := findExternalImages_spec env s content
  obtain ⟨d1, hd1, hw1, hg1⟩ := pcLoop_events env st sourcePath bg
    (findExternalImages env s content).1 content 0 (findExternalImages env s content).2
  refine ⟨d1 ++ d0, by rw [hd1, hd0, List.append_assoc], ?_, ?_⟩
  · intro p hp
    rcases List.mem_append.mp hp with h | h
    · exact hw1 p h
    · obtain ⟨u, hu⟩ := hall0 _ h
      simp at hu
  · intro u hu
    rcases List.mem_append.mp hu with h | h
    · obtain ⟨c, hc, rfl⟩ := hg1 u h
      exact ((findExternalImages_spec env s content).1 c hc).2
    · obtain ⟨u', hu'⟩ := hall0 _ h
      simp at hu'

/-- A failing `processFile` has not modified any stored document. -/
theorem processFile_err_docs (env : Env) (st : ImageManagerSettings)
    (s : VState) (docPath : Str) (bg : Bool) (e : Str) (s' : VState)
    (h : processFile env st s docPath bg = .error (e, s')) : s'.docs = s.docs := by
  unfold processFile at h
  split_ifs at h with h1
  cases hl : lookupDoc s docPath with
  | none =>
    rw [hl] at h
    dsimp only at h
    obtain ⟨-, h2⟩ := Prod.mk.injEq .. |>.mp (Except.error.inj h)
    rw [← h2]
  | some content =>
    rw [hl] at h
    dsimp only at h
    split_ifs at h with h2
    · cases hw : env.writeFails docPath with
      | none => rw [hw] at h; simp at h
      | some msg =>
        rw [hw] at h
        dsimp only at h
        obtain ⟨-, h3⟩ := Prod.mk.injEq .. |>.mp (Except.error.inj h)
        rw [← h3]
        exact processContent_docs env st s content docPath bg

/-- C1 core: a document whose processing throws aborts the remaining loop
with that same error and state. -/
theorem paLoop_head_error (env : Env) (st : ImageManagerSettings)
    (f : Str) (fs : List Str) (total : Nat) (t : VState) (e : Str) (t' : VState)
    (hsup : st.supportedExtensions.contains (extOf f) = true)
    (herr : processFile env st t f false = .error (e, t')) :
    paLoop env st (f :: fs) total t = .error (e, t') := by
  simp only [paLoop, hsup, if_true, herr]

/-- The state after an interactive rename modal is answered: one modal
event recorded and the modal counter advanced. -/
def afterRenameModal (s : VState) : VState :=
  { s with events := Event.modalOpened .renameDialog :: s.events, modalCount := s.modalCount + 1 }

/-- C2: in a single-document pass over a document whose scan yields exactly
one convertible (verified) remote image, if the rename prompt is cancelled
then the pass returns count 0 with the working text identical to the
original, no document write happens (stored text byte-identical), and the
downloaded temporary asset has been trashed (trash event recorded, file
gone from the vault). -/
theorem claim_C2_cancel_skip :
    ∀ (env : Env) (st : ImageManagerSettings) (s : VState)
      (docPath content : Str) (img : Candidate) (s₁ : VState) (tp : Str)
      (s₂ : VState),
    st.autoRename = false →
    st.enableDescriptiveImages = false →
    (∀ k, env.renameModal k = none) →
    isMarkdownFile docPath = true →
    lookupDoc s docPath = some content →
    findExternalImages env s content = ([img], s₁) →
    downloadAndSave env st s₁ img.url docPath = (some tp, s₂) →
    ∃ sF, processFile env st s docPath false = .ok (0, sF) ∧
      (processContent env st s content docPath false).1.1 = content ∧
      sF.docs = s.docs ∧
      Event.trashed tp ∈ sF.events ∧
      sF.files.contains tp = false ∧
      (∀ p, Event.wroteDoc p ∈ sF.events → Event.wroteDoc p ∈ s.events) := by
  intro env st s docPath content img s₁ tp s₂ hauto hdesc hmodal hmd hlook hfind hdl
  have hdls := downloadAndSave_some env st s₁ img.url docPath tp s₂ hdl
  have hfile : isFileAt s₂ tp = true := by
    unfold isFileAt
    rw [hdls.1]
    simp
  have hrif : ∀ sug, renameImageFile env st s₂ tp sug docPath =
      (none, afterRenameModal s₂) := by
    intro sug
    unfold renameImageFile namingPhase afterRenameModal
    rw [hdesc, hauto]
    simp only [Bool.not_false, if_true, Bool.false_eq_true, if_false, hmodal]
  have hpc : processContent env st s content docPath false =
      ((content, 0), trashFile (afterRenameModal s₂) tp) := by
    unfold processContent
    rw [hfind]
    dsimp only
    simp only [pcLoop, Bool.false_and, Bool.false_eq_true, if_false]
    rw [hdl]
    dsimp only
    simp only [hfile, Bool.not_true, Bool.false_eq_true, if_false]
    rw [hrif]
  refine ⟨trashFile (afterRenameModal s₂) tp, ?_, ?_, ?_, ?_, ?_, ?_⟩
  · unfold processFile
    rw [hmd, hlook]
    dsimp only
    rw [hpc]
    simp
  · rw [hpc]
  · show (afterRenameModal s₂).docs = s.docs
    have hd2 : s₂.docs = s₁.docs := by
      have := (downloadAndSave_spec env st s₁ img.url docPath).2.1
      rw [hdl] at this
      exact this
    have hd1 : s₁.docs = s.docs := by
      have := (findExternalImages_spec env s content).2.2.1
      rw [hfind] at this
      exact this
    show s₂.docs = s.docs
    rw [hd2, hd1]
  · exact List.mem_cons_self _ _
  · show ((afterRenameModal s₂).files.erase tp).contains tp = false
    show (s₂.files.erase tp).contains tp = false
    rw [hdls.1, List.erase_cons_head]
    exact hdls.2
  · intro p hp
    have hp' : Event.wroteDoc p ∈ s₂.events := by
      rcases List.mem_cons.mp hp with h | h
      · simp at h
      · rcases List.mem_cons.mp h with h' | h'
        · simp at h'
        · exact h'
    obtain ⟨⟨d, hd, hall⟩, -, -, -⟩ := downloadAndSave_spec env st s₁ img.url docPath
    rw [hdl] at hd
    dsimp only at hd
    rw [hd] at hp'
    rcases List.mem_append.mp hp' with h | h
    · rcases hall _ h with h' | ⟨q, h'⟩ | ⟨q, h'⟩ <;> simp at h'
    · obtain ⟨-, ⟨d0, hd0, hall0⟩, -, -, -, -⟩ := findExternalImages_spec env s content
      rw [hfind] at hd0
      dsimp only at hd0
      rw [hd0] at h
      rcases List.mem_append.mp h with h' | h'
      · obtain ⟨u, hu⟩ := hall0 _ h'
        simp at hu
      · exact h'

/-- The single candidate of `docOneImage`. -/
def cand2 : Candidate :=
  ⟨0, docOneImage, "http://h/b.png".data, some "x".data, .mdImage⟩

/-- State after scanning `docOneImage` (one head request). -/
def s1C2 : VState :=
  ⟨[], [], [("note.md".data, docOneImage)], 0, 0,
   [.headRequest "http://h/b.png".data]⟩

/-- State after downloading the image to `b.png`. -/
def s2C2 : VState :=
  ⟨["b.png".data], [], [("note.md".data, docOneImage)], 0, 0,
   [.savedFile "b.png".data, .getRequest "http://h/b.png".data,
    .headRequest "http://h/b.png".data]⟩

/-- Witness for C2 at a concrete run: interactive settings, modal
cancelled, one verified image. -/
theorem claim_C2_cancel_skip_witness :
    ∃ sF, processFile envCancel stInteractive
        (oneDocState "note.md".data docOneImage) "note.md".data false =
        .ok (0, sF) ∧
      (processContent envCancel stInteractive
        (oneDocState "note.md".data docOneImage) docOneImage "note.md".data
        false).1.1 = docOneImage ∧
      sF.docs = (oneDocState "note.md".data docOneImage).docs ∧
      Event.trashed "b.png".data ∈ sF.events ∧
      sF.files.contains "b.png".data = false ∧
      (∀ p, Event.wroteDoc p ∈ sF.events →
        Event.wroteDoc p ∈ (oneDocState "note.md".data docOneImage).events) :=
  claim_C2_cancel_skip envCancel stInteractive
    (oneDocState "note.md".data docOneImage) "note.md".data docOneImage
    cand2 s1C2 "b.png".data s2C2 rfl rfl (fun _ => rfl) (by decide) (by decide)
    (by decide) (by decide)

/-- C3 counterexample: in the conversion flow, when the underlying rename
throws (oracle message `boom`), the temporary downloaded asset is NOT left
in place — the orchestrator trashes it: the trash event is recorded and
the file is gone from the vault. -/
theorem claim_C3_temp_preserved_counterexample :
    (exceptState (processFile envRenameThrows stInteractive
        (oneDocState "note.md".data docOneImage) "note.md".data false)).map
      (fun sF => (sF.events.contains (Event.trashed "b.png".data),
                  sF.files.contains "b.png".data)) = some (true, false) := by
  decide

/-- C3 amended: when the rename throws, the image's result does report
failure carrying the underlying error message, and `renameImageFile`
itself leaves the temp asset in place (the file list is unchanged); but
the conversion orchestrator then takes the same path as a cancellation and
trashes the temp asset, so after the pass it is removed from the vault. -/
theorem claim_C3_rename_failure_amended :
    (∀ (env : Env) (st : ImageManagerSettings) (s : VState)
       (ip sug note nm fp msg : Str) (s2 : VState),
      st.enableDescriptiveImages = false →
      st.autoRename = false →
      env.renameModal s.modalCount = some nm →
      getAvailablePath env st (afterRenameModal s) nm (extOf ip) note =
        .ok (fp, s2) →
      env.renameOp s2.renameCount = some msg →
      ∃ s', renameImageFile env st s ip sug note =
          (some ⟨none, [], [], false, some msg⟩, s') ∧ s'.files = s.files) ∧
    (exceptState (processFile envRenameThrows stInteractive
        (oneDocState "note.md".data docOneImage) "note.md".data false)).map
      (fun sF => sF.files.contains "b.png".data) = some false := by
  refine ⟨?_, by decide⟩
  intro env st s ip sug note nm fp msg s2 hdesc hauto hmodal hgap hop
  unfold afterRenameModal at hgap
  refine ⟨{ s2 with renameCount := s2.renameCount + 1 }, ?_, ?_⟩
  · unfold renameImageFile namingPhase
    rw [hdesc, hauto]
    simp only [Bool.not_false, if_true, Bool.false_eq_true, if_false, hmodal]
    rw [hgap]
    dsimp only
    rw [hop]
  · show s2.files = s.files
    have := (getAvailablePath_spec env st _ nm (extOf ip) note fp s2 hgap).2.2.1
    rw [this]

/-- Witness for C3's amended universal part at a concrete input. -/
theorem claim_C3_rename_failure_amended_witness :
    ∃ s', renameImageFile envRenameThrows stInteractive s2C2 "b.png".data
        "x".data "note.md".data =
        (some ⟨none, [], [], false, some "boom".data⟩, s') ∧
      s'.files = s2C2.files :=
  claim_C3_rename_failure_amended.1 envRenameThrows stInteractive s2C2
    "b.png".data "x".data "note.md".data "pic".data "pic.png".data
    "boom".data (afterRenameModal s2C2) rfl rfl rfl rfl rfl

/-- C4: the code contradicts its own `isBackground` contract ("skip
conversion if user interaction (modal) would be required").  With
descriptive images enabled together with auto-rename, a background pass
still downloads the image and opens the descriptive modal, and converts
the document (count 1) instead of skipping all work. -/
theorem claim_C4_background_modal_bug :
    (exceptState (processFile envPng stDescAuto
        (oneDocState "note.md".data docOneImage) "note.md".data true)).map
      (fun sF => (sF.events.contains (Event.modalOpened .descriptive),
                  sF.events.contains (Event.getRequest "http://h/b.png".data),
                  sF.events.contains (Event.wroteDoc "note.md".data))) =
      some (true, true, true) ∧
    exceptCount (processFile envPng stDescAuto
        (oneDocState "note.md".data docOneImage) "note.md".data true) =
      some 1 := by
  decide

/-- `envPng` where writing document `b.md` throws. -/
def env3 : Env :=
  { envPng with writeFails := fun p =>
      if p = "b.md".data then some "write failed".data else none }

/-- Three documents, each holding one convertible remote image. -/
def vThreeDocs : VState :=
  ⟨[], [], [("a.md".data, docOneImage), ("b.md".data, docOneImage),
    ("c.md".data, docOneImage)], 0, 0, []⟩

/-- C1 counterexample: in a whole-collection run over three documents where
the second document's write throws, the run aborts: no total is returned,
the first document was written but the third was never processed (its text
still holds the remote link, and no write event exists for it). -/
theorem claim_C1_batch_isolation_counterexample :
    (processAllFiles env3 stAuto vThreeDocs).isOk = false ∧
    (errState (processAllFiles env3 stAuto vThreeDocs)).map
      (fun sE => (sE.events.contains (Event.wroteDoc "a.md".data),
                  sE.events.contains (Event.wroteDoc "c.md".data))) =
      some (true, false) ∧
    (errState (processAllFiles env3 stAuto vThreeDocs)).bind
      (fun sE => lookupDoc sE "c.md".data) = some docOneImage := by
  decide

/-- C1 amended: an error thrown while processing one document aborts the
whole-collection run at that document: the loop returns that error (no
total), and the failing document itself is left untouched; only documents
processed before the failure keep their conversions. -/
theorem claim_C1_batch_isolation_amended :
    ∀ (env : Env) (st : ImageManagerSettings) (f : Str) (fs : List Str)
      (total : Nat) (t : VState) (e : Str) (t' : VState),
      st.supportedExtensions.contains (extOf f) = true →
      processFile env st t f false = .error (e, t') →
      paLoop env st (f :: fs) total t = .error (e, t') ∧ t'.docs = t.docs :=
  fun env st f fs total t e t' hsup herr =>
    ⟨paLoop_head_error env st f fs total t e t' hsup herr,
     processFile_err_docs env st t f false e t' herr⟩

/-- Witness for C1's amended claim: the failing `b.md` aborts the loop and
its documents are untouched. -/
theorem claim_C1_batch_isolation_amended_witness :
    ∃ e t', paLoop env3 stAuto ["b.md".data, "c.md".data] 0
        (oneDocState "b.md".data docOneImage) = .error (e, t') ∧
      t'.docs = (oneDocState "b.md".data docOneImage).docs := by
  cases hpf : processFile env3 stAuto (oneDocState "b.md".data docOneImage)
      "b.md".data false with
  | ok v =>
    exfalso
    have hfalse : (processFile env3 stAuto
        (oneDocState "b.md".data docOneImage) "b.md".data false).isOk = false := by
      decide
    rw [hpf] at hfalse
    simp [Except.isOk, Except.toBool] at hfalse
  | error p =>
    obtain ⟨e, t'⟩ := p
    have h := claim_C1_batch_isolation_amended env3 stAuto "b.md".data
      ["c.md".data] 0 (oneDocState "b.md".data docOneImage) e t'
      (by decide) hpf
    exact ⟨e, t', h.1, h.2⟩

/-- An empty vault with no documents, used for scanner runs. -/
def emptyVault : VState := ⟨[], [], [], 0, 0, []⟩

/-- A fenced block holding the pattern, then the identical pattern outside. -/
def fenceDoc : Str :=
  ("```\n![p](http://u/i.png)\n```\n" ++ "![p](http://u/i.png)").data

/-- The pattern inside inline code. -/
def inlineDoc : Str := "`![p](http://u/i.png)`".data

/-- A single-line fenced block whose closing backtick run would, without
the fenced-first exclusion, pair as inline code with the trailing backtick
and cover the image at index 10. -/
def ffDoc : Str := "```a``x```![p](http://u/i.png)`".data

/-- C6: candidates are never emitted from inside code regions (fenced or
inline); for `fenceDoc` only the copy outside the fence (index 29) is
found while the identical copy inside (index 4) is not; inline code yields
nothing; and in `ffDoc` the fenced region is computed first and excluded
from inline-code detection, so the inline-like span starting at index 9
inside the fence does not suppress the image at index 10. -/
theorem claim_C6_code_region_exclusion :
    (∀ (env : Env) (s : VState) (content : Str) (c : Candidate),
      c ∈ (findExternalImages env s content).1 →
      isInsideCodeBlock content c.index = false) ∧
    (findExternalImages envPng emptyVault fenceDoc).1.map Candidate.index = [29] ∧
    (findExternalImages envPng emptyVault inlineDoc).1 = [] ∧
    (findExternalImages envPng emptyVault ffDoc).1.map Candidate.index = [10] :=
  ⟨fun env s content c hc => (findExternalImages_sound env s content c hc).1,
   by decide, by decide, by decide⟩

/-- The out-of-fence candidate of `fenceDoc`. -/
def cand6 : Candidate :=
  ⟨29, "![p](http://u/i.png)".data, "http://u/i.png".data, some "p".data,
   .mdImage⟩

/-- Witness for C6's universal part at the concrete fence document. -/
theorem claim_C6_code_region_exclusion_witness :
    isInsideCodeBlock fenceDoc cand6.index = false :=
  claim_C6_code_region_exclusion.1 envPng emptyVault fenceDoc cand6 (by decide)

/-- Two images, one whose probe reports `text/html`, one `image/png`. -/
def doc7 : Str := "![a](http://h/x.html) ![b](http://h/y.png)".data

/-- C7: the verifier returns true exactly when the probe succeeded with a
content-type header beginning (case-insensitively) with `image/`; a URL
that does not verify is never downloaded during a pass (no GET is ever
issued for it), while the verifying URL of the concrete document proceeds
to download. -/
theorem claim_C7_verifier_gating :
    (∀ (env : Env) (s : VState) (url : Str),
      (verifyImageUrl env s url).1 = true ↔
        ∃ ct, env.head url = some (some ct) ∧
          strStartsWith (lowerStr ct) "image/".data = true) ∧
    (∀ (env : Env) (st : ImageManagerSettings) (s : VState)
       (content sourcePath : Str) (bg : Bool) (u : Str),
      Event.getRequest u ∈ (processContent env st s content sourcePath bg).2.events →
      Event.getRequest u ∈ s.events ∨ urlVerifies env u = true) ∧
    (exceptState (processFile envPng stAuto (oneDocState "note.md".data doc7)
        "note.md".data false)).map
      (fun sF => (sF.events.contains (Event.getRequest "http://h/y.png".data),
                  sF.events.contains (Event.getRequest "http://h/x.html".data),
                  sF.events.contains (Event.headRequest "http://h/x.html".data))) =
      some (true, false, true) := by
  refine ⟨?_, ?_, by decide⟩
  · intro env s url
    rw [verifyImageUrl_spec]
    dsimp only
    unfold urlVerifies
    cases hh : env.head url with
    | none => simp
    | some h =>
      cases h with
      | none =>
        constructor
        · intro hfalse
          exact absurd hfalse (by decide)
        · rintro ⟨ct, hct, -⟩
          simp at hct
      | some ct =>
        constructor
        · intro htrue
          exact ⟨ct, rfl, htrue⟩
        · rintro ⟨ct', hct, h'⟩
          obtain rfl : ct = ct' := by
            have := Option.some_inj.mp hct
            exact Option.some_inj.mp this
          exact h'
  · intro env st s content sourcePath bg u hu
    obtain ⟨d, hd, hw, hg⟩ := processContent_events env st s content sourcePath bg
    rw [hd] at hu
    rcases List.mem_append.mp hu with h | h
    · exact Or.inr (hg u h)
    · exact Or.inl h

/-- Witness for C7's never-download part: the verified URL's GET in the
concrete run implies it verified. -/
theorem claim_C7_verifier_gating_witness :
    Event.getRequest "http://h/y.png".data ∈
      (oneDocState "note.md".data doc7).events ∨
    urlVerifies envPng "http://h/y.png".data = true :=
  claim_C7_verifier_gating.2.1 envPng stAuto (oneDocState "note.md".data doc7)
    doc7 "note.md".data false "http://h/y.png".data (by decide)

/-- A zero-substitution pass (no found substitution was recorded) leaves
the working text identical to the input and returns count 0. -/
theorem processContent_zero_subst (env : Env) (st : ImageManagerSettings)
    (s : VState) (content sourcePath : Str) (bg : Bool)
    (hsub : substTrueCount (processContent env st s content sourcePath bg).2.events =
      substTrueCount s.events) :
    (processContent env st s content sourcePath bg).1.1 = content ∧
    (processContent env st s content sourcePath bg).1.2 = 0 := by
  have hscan : substTrueCount (findExternalImages env s content).2.events =
      substTrueCount s.events := by
    obtain ⟨-, ⟨d, hd, hall⟩, -, -, -, -⟩ := findExternalImages_spec env s content
    rw [hd]
    apply substTrueCount_append_none
    intro e he
    obtain ⟨u, rfl⟩ := hall e he
    rfl
  unfold processContent at hsub ⊢
  dsimp only at hsub ⊢
  exact pcLoop_zero_subst env st sourcePath bg content
    (findExternalImages env s content).1 (findExternalImages env s content).2
    (fun c hc => (findExternalImages_sound env s content c hc).2)
    (hsub.trans hscan.symm)

/-- A post-conversion document: the image link is already local. -/
def doc9 : Str := "![[x.png|x]]".data

/-- A vault state as left by a completed conversion: the asset exists and
the document holds only the local link. -/
def v9 : VState := ⟨["x.png".data], [], [("note.md".data, doc9)], 0, 0, []⟩

/-- C9: whenever a document pass records no found substitution, the
document is not written: the pass returns count 0 with the text unchanged,
`processFile` takes the no-write branch (returning the pass state as-is,
with no write issued and stored documents untouched), and no write event
is added.  In particular a second run over an already-converted document
reproduces the state of the first run exactly. -/
theorem claim_C9_no_write_without_subst :
    (∀ (env : Env) (st : ImageManagerSettings) (s : VState)
       (docPath content : Str) (bg : Bool),
      isMarkdownFile docPath = true →
      lookupDoc s docPath = some content →
      substTrueCount (processContent env st s content docPath bg).2.events =
        substTrueCount s.events →
      (processContent env st s content docPath bg).1.2 = 0 ∧
      (processContent env st s content docPath bg).1.1 = content ∧
      processFile env st s docPath bg =
        .ok (0, (processContent env st s content docPath bg).2) ∧
      (processContent env st s content docPath bg).2.docs = s.docs ∧
      (∀ p, Event.wroteDoc p ∈
          (processContent env st s content docPath bg).2.events →
        Event.wroteDoc p ∈ s.events)) ∧
    (match processFile envPng stAuto (oneDocState "note.md".data docOneImage)
        "note.md".data false with
     | .ok (_, s1) => processFile envPng stAuto s1 "note.md".data false = .ok (0, s1)
     | .error _ => False) := by
  refine ⟨?_, rfl⟩
  intro env st s docPath content bg hmd hlook hsub
  obtain ⟨hc, hz⟩ := processContent_zero_subst env st s content docPath bg hsub
  refine ⟨hz, hc, ?_, processContent_docs env st s content docPath bg, ?_⟩
  · unfold processFile
    rw [hmd, hlook]
    dsimp only
    rw [hz]
    simp
  · intro p hp
    obtain ⟨d, hd, hw, -⟩ := processContent_events env st s content docPath bg
    rw [hd] at hp
    rcases List.mem_append.mp hp with h | h
    · exact absurd h (hw p)
    · exact h

/-- Witness for C9's universal part at a concrete already-converted
vault. -/
theorem claim_C9_no_write_without_subst_witness :
    (processContent envPng stAuto v9 doc9 "note.md".data false).1.2 = 0 ∧
    processFile envPng stAuto v9 "note.md".data false =
      .ok (0, (processContent envPng stAuto v9 doc9 "note.md".data false).2) :=
  have h := claim_C9_no_write_without_subst.1 envPng stAuto v9
    "note.md".data doc9 false (by decide) (by decide) (by decide)
  ⟨h.1, h.2.2.1⟩

/-- A markdown image nested inside an HTML img tag's alt attribute: both
patterns match, but after the markdown span is replaced the stored HTML
span no longer occurs verbatim. -/
def doc10 : Str :=
  "<img src=\"http://h/a.png\" alt=\"![x](http://h/b.png)\">".data

/-- C10: each downloaded-and-renamed image increments the count whether or
not its stored span still occurred when substituted (the count equals the
number of substitution events, found or not); on the nested-pattern
document the pass returns count 2 while only 1 substitution actually
found its span, so the count strictly exceeds the substitutions applied. -/
theorem claim_C10_count_exceeds_substitutions :
    (∀ (env : Env) (st : ImageManagerSettings) (s : VState)
       (content sourcePath : Str) (bg : Bool),
      (processContent env st s content sourcePath bg).1.2 + substCount s.events =
        substCount (processContent env st s content sourcePath bg).2.events) ∧
    (processContent envPng stAuto (oneDocState "note.md".data doc10) doc10
        "note.md".data false).1.2 = 2 ∧
    substCount (processContent envPng stAuto (oneDocState "note.md".data doc10)
        doc10 "note.md".data false).2.events = 2 ∧
    substTrueCount (processContent envPng stAuto
        (oneDocState "note.md".data doc10) doc10 "note.md".data false).2.events = 1 :=
  ⟨processContent_count, by decide, by decide, by decide⟩
